import Mathlib

/-!
# Verification of `benchmark.go`

A shallow embedding of the concurrent request dispatcher of `benchmark.go`
(`Request`, `NewRequest`, `MakeSync`, `Status`) as an interleaving transition
system.  Every goroutine of `MakeSync` (the caller and each spawned worker) has a
program counter that names the source line it is about to execute; one step of the
system executes one such line of one goroutine.  A blocked goroutine (waiting for
the mutex, for buffer space or for the wait group) has no step.

Two things belong to the Go runtime and the transport rather than to the repository and
are parameters of the model: the largest channel capacity `make` can allocate (`maxCap`),
and the result of each transport call (`Transport`).  Starting a goroutine is taken to
succeed.
-/

namespace Benchmark

/-! ## Data model -/

/-- The `*http.Request` that all workers share; the dispatcher never looks inside. -/
structure HttpRequest where
  method : String
  url : String
  deriving DecidableEq

/-- The `*http.Response` produced by the transport; the dispatcher never looks inside. -/
structure HttpResponse where
  statusCode : Nat
  deriving DecidableEq

/-- The struct `type Response struct { httpResponse *http.Response; err error }`;
a nil pointer or nil error is `none`. -/
structure Response where
  httpResponse : Option HttpResponse
  err : Option String
  deriving DecidableEq

/-- The getter `func (res Response) HttpResponse() *http.Response`. -/
def Response.HttpResponse (res : Response) : Option HttpResponse := res.httpResponse

/-- The getter `func (res Response) Error() error`. -/
def Response.Error (res : Response) : Option String := res.err

/-- The struct `type Request struct`: `count int64`, `concurrency int`, `httpRequest`,
`status int64`, `mutex sync.Mutex` (`true` when locked). -/
structure Request where
  count : Int
  concurrency : Int
  httpRequest : HttpRequest
  status : Int
  mutex : Bool
  deriving DecidableEq

/-- The constructor `func NewRequest(httpRequest, count, concurrency) *Request`: stores
the arguments, sets `status: 0`; the zero value of `sync.Mutex` is unlocked. -/
def NewRequest (httpRequest : HttpRequest) (count : Int) (concurrency : Int) : Request :=
  { count := count, concurrency := concurrency, httpRequest := httpRequest,
    status := 0, mutex := false }

/-- Largest `int64`. -/
def maxInt64 : Int := 2 ^ 63 - 1

/-- Two's complement wrap-around of a mathematical integer into `int64`. -/
def wrapInt64 (x : Int) : Int := (x + 2 ^ 63) % 2 ^ 64 - 2 ^ 63

/-- The transport `http.DefaultClient.Do`: the result of its `n`-th invocation
(counting from `0`) on the given request.  Any sequence of results is such a function.
Every invocation is taken to return (with a response or an error). -/
abbrev Transport := Nat → HttpRequest → Response

/-- A buffered `chan Response`: capacity, buffered elements (oldest first), closed flag.
The channel `res` is a local variable of `MakeSync` until `MakeSync` returns it, so nobody
receives from it during the run: the buffer only grows. -/
structure Chan where
  cap : Int
  buf : List Response
  closed : Bool
  deriving DecidableEq

/-- Program counter of the goroutine that called `MakeSync`. -/
inductive MainPc where
  /-- line 49-52: `res = make(chan Response, req.count)` (which panics for a negative
  size), `defer close(res)`, `wg := sync.WaitGroup{}` -/
  | makeChan
  /-- line 54: loop test `i < req.concurrency` -/
  | loopTest (i : Int)
  /-- line 55: `wg.Add(1)` -/
  | wgAdd (i : Int)
  /-- line 56-73: `go func() {...}()`, then `i++` (no overflow: `i < req.concurrency`) -/
  | goStmt (i : Int)
  /-- line 76: `wg.Wait()` -/
  | wgWait
  /-- line 78: `return`, which runs the deferred `close(res)` -/
  | ret
  /-- after line 78: `MakeSync` has returned `res` to its caller -/
  | returned
  deriving DecidableEq

/-- Program counter of one worker goroutine (the closure of lines 56-73). -/
inductive WorkerPc where
  /-- line 58: `req.mutex.Lock()` -/
  | lock
  /-- line 59: `if req.status >= req.count` -/
  | check
  /-- line 60-61: `req.mutex.Unlock(); break` -/
  | unlockBreak
  /-- line 64: `req.status++` -/
  | incr
  /-- line 65: `req.mutex.Unlock()` -/
  | unlockWork
  /-- line 66-67: `newRes.httpResponse, newRes.err = http.DefaultClient.Do(req.httpRequest)` -/
  | doCall
  /-- line 68: `res <- newRes` -/
  | send (newRes : Response)
  /-- line 71: `wg.Done()` -/
  | wgDone
  /-- line 72: the goroutine has returned -/
  | exited
  deriving DecidableEq

/-- Global state of one invocation of `MakeSync`. -/
structure State where
  /-- the receiver `req` -/
  req : Request
  /-- program counter of the calling goroutine -/
  main : MainPc
  /-- program counters of the spawned workers, in spawn order -/
  workers : List WorkerPc
  /-- counter of the `sync.WaitGroup` -/
  wg : Int
  /-- the channel `res`; `none` before `make` -/
  res : Option Chan
  /-- number of transport invocations made so far -/
  calls : Nat
  /-- a goroutine panicked (the process is dead) -/
  panicked : Bool
  deriving DecidableEq

/-- The state on entry to `req.MakeSync()`, `calls` transport invocations having
happened before. -/
def MakeSync.start (req : Request) (calls : Nat) : State :=
  { req := req, main := .makeChan, workers := [], wg := 0, res := none,
    calls := calls, panicked := false }

/-- The goroutines of one `MakeSync` invocation. -/
inductive Actor where
  | main
  | worker (i : Nat)
  deriving DecidableEq

/-! ## Transition system -/

/-- One step of the calling goroutine; `none` when it is blocked or has returned.
`maxCap` is the largest capacity for which `make(chan Response, n)` succeeds: the Go
runtime panics (`makechan: size out of range`) for a negative size and for one whose
buffer exceeds what it can allocate.  The bound belongs to the runtime, not to this
repository, and is a parameter. -/
def stepMain (maxCap : Int) (s : State) : Option State :=
  match s.main with
  | .makeChan =>
      if s.req.count < 0 ∨ maxCap < s.req.count then some { s with panicked := true }
      else some { s with res := some { cap := s.req.count, buf := [], closed := false },
                         wg := 0, main := .loopTest 0 }
  | .loopTest i =>
      if i < s.req.concurrency then some { s with main := .wgAdd i }
      else some { s with main := .wgWait }
  | .wgAdd i =>
      if s.wg + 1 < 0 then some { s with panicked := true }
      else some { s with wg := s.wg + 1, main := .goStmt i }
  | .goStmt i => some { s with workers := s.workers ++ [.lock], main := .loopTest (i + 1) }
  | .wgWait => if s.wg = 0 then some { s with main := .ret } else none
  | .ret =>
      match s.res with
      | none => some { s with panicked := true }
      | some ch =>
          if ch.closed then some { s with panicked := true }
          else some { s with res := some { ch with closed := true }, main := .returned }
  | .returned => none

/-- Replace the program counter of worker `i`. -/
def State.setPc (s : State) (i : Nat) (pc : WorkerPc) : State :=
  { s with workers := s.workers.set i pc }

/-- One step of worker `i` standing at `pc`; `none` when it is blocked or has exited. -/
def stepWorkerAt (t : Transport) (s : State) (i : Nat) : WorkerPc → Option State
  | .lock =>
      if s.req.mutex then none
      else some ({ s with req := { s.req with mutex := true } }.setPc i .check)
  | .check =>
      if s.req.status ≥ s.req.count then some (s.setPc i .unlockBreak)
      else some (s.setPc i .incr)
  | .unlockBreak =>
      if s.req.mutex then some ({ s with req := { s.req with mutex := false } }.setPc i .wgDone)
      else some { s with panicked := true }
  | .incr =>
      some ({ s with req := { s.req with status := wrapInt64 (s.req.status + 1) } }.setPc i
        .unlockWork)
  | .unlockWork =>
      if s.req.mutex then some ({ s with req := { s.req with mutex := false } }.setPc i .doCall)
      else some { s with panicked := true }
  | .doCall =>
      some ({ s with calls := s.calls + 1 }.setPc i (.send (t s.calls s.req.httpRequest)))
  | .send newRes =>
      match s.res with
      | none => none
      | some ch =>
          if ch.closed then some { s with panicked := true }
          else if (ch.buf.length : Int) < ch.cap then
            some ({ s with res := some { ch with buf := ch.buf ++ [newRes] } }.setPc i .lock)
          else none
  | .wgDone =>
      if s.wg - 1 < 0 then some { s with panicked := true }
      else some ({ s with wg := s.wg - 1 }.setPc i .exited)
  | .exited => none

/-- One step of worker `i`; `none` when there is no such worker. -/
def stepWorker (t : Transport) (s : State) (i : Nat) : Option State :=
  match s.workers[i]? with
  | none => none
  | some pc => stepWorkerAt t s i pc

/-- One step of the chosen goroutine.  A panic kills the process: no further step. -/
def step (maxCap : Int) (t : Transport) (s : State) (a : Actor) : Option State :=
  if s.panicked then none
  else match a with
    | .main => stepMain maxCap s
    | .worker i => stepWorker t s i

/-- Run a schedule (the goroutine chosen at each step); `none` if a chosen goroutine
cannot move. -/
def exec (maxCap : Int) (t : Transport) (s : State) : List Actor → Option State
  | [] => some s
  | a :: as => (step maxCap t s a).bind fun s' => exec maxCap t s' as

/-- States reachable from `s₀` under transport `t` by some interleaving. -/
inductive Reachable (maxCap : Int) (t : Transport) (s₀ : State) : State → Prop where
  | refl : Reachable maxCap t s₀ s₀
  | tail {s s' : State} (a : Actor) : Reachable maxCap t s₀ s → step maxCap t s a = some s' →
      Reachable maxCap t s₀ s'

/-! ## Counting workers by program counter -/

/-- Sum of a weight over all workers. -/
def total (f : WorkerPc → Nat) (l : List WorkerPc) : Nat := (l.map f).sum

/-- Weight 1 for a worker inside the critical section (it holds the mutex). -/
def inCrit : WorkerPc → Nat
  | .check | .unlockBreak | .incr | .unlockWork => 1
  | _ => 0

/-- Weight 1 for a worker about to execute `req.status++`. -/
def atIncr : WorkerPc → Nat
  | .incr => 1
  | _ => 0

/-- Weight 1 for a worker that has claimed a unit of work (incremented `status`) and
has not yet pushed its `Response`. -/
def inFlight : WorkerPc → Nat
  | .unlockWork | .doCall | .send _ => 1
  | _ => 0

/-- Weight 1 for a worker that holds a `Response` it is about to push. -/
def atSend : WorkerPc → Nat
  | .send _ => 1
  | _ => 0

/-- Weight 1 for a worker that has observed `req.status >= req.count`. -/
def sawDone : WorkerPc → Nat
  | .unlockBreak | .wgDone | .exited => 1
  | _ => 0

/-- Weight 1 for a worker that has not yet executed `wg.Done()`. -/
def live : WorkerPc → Nat
  | .exited => 0
  | _ => 1

/-- Weight 1 while the caller stands between `wg.Add(1)` and the `go` statement. -/
def pendingGo : MainPc → Nat
  | .goStmt _ => 1
  | _ => 0

/-- Number of `Response`s in the channel buffer (`0` before `make`). -/
def State.bufLen (s : State) : Nat :=
  match s.res with
  | none => 0
  | some ch => ch.buf.length

/-! ## The invariant of a run -/

/-- A request on which `MakeSync` may be started and gets past `make`: nobody holds the
mutex, the counter lies between `0` and `count`, which is an `int64`, and a channel of
capacity `count` can be made. -/
structure Request.Ready (maxCap : Int) (r : Request) : Prop where
  mutex_free : r.mutex = false
  status_nonneg : 0 ≤ r.status
  status_le : r.status ≤ r.count
  count_le : r.count ≤ maxInt64
  count_le_cap : r.count ≤ maxCap

/-- What the program counter of the calling goroutine says about the worker list and
the channel. -/
def MainInv (r₀ : Request) (s : State) : Prop :=
  match s.main with
  | .makeChan => s.res = none ∧ s.workers = []
  | .loopTest i => (s.workers.length : Int) = i ∧ (i ≤ r₀.concurrency ∨ i = 0) ∧
      ∃ buf, s.res = some { cap := r₀.count, buf := buf, closed := false }
  | .wgAdd i => (s.workers.length : Int) = i ∧ i < r₀.concurrency ∧
      ∃ buf, s.res = some { cap := r₀.count, buf := buf, closed := false }
  | .goStmt i => (s.workers.length : Int) = i ∧ i < r₀.concurrency ∧
      ∃ buf, s.res = some { cap := r₀.count, buf := buf, closed := false }
  | .wgWait => s.workers.length = r₀.concurrency.toNat ∧
      ∃ buf, s.res = some { cap := r₀.count, buf := buf, closed := false }
  | .ret => s.workers.length = r₀.concurrency.toNat ∧ total live s.workers = 0 ∧
      ∃ buf, s.res = some { cap := r₀.count, buf := buf, closed := false }
  | .returned => s.workers.length = r₀.concurrency.toNat ∧ total live s.workers = 0 ∧
      ∃ buf, s.res = some { cap := r₀.count, buf := buf, closed := true }

/-- The inductive invariant of `MakeSync` started on request `r₀` after `c₀` earlier
transport invocations. -/
structure Inv (r₀ : Request) (c₀ : Nat) (s : State) : Prop where
  not_panicked : s.panicked = false
  count_eq : s.req.count = r₀.count
  concurrency_eq : s.req.concurrency = r₀.concurrency
  httpRequest_eq : s.req.httpRequest = r₀.httpRequest
  status_ge : r₀.status ≤ s.req.status
  status_le : s.req.status ≤ r₀.count
  mutex_crit : total inCrit s.workers = if s.req.mutex then 1 else 0
  incr_lt : 0 < total atIncr s.workers → s.req.status < r₀.count
  done_ge : 0 < total sawDone s.workers → r₀.count ≤ s.req.status
  claimed_eq : s.req.status = r₀.status + s.bufLen + total inFlight s.workers
  calls_eq : s.calls = c₀ + s.bufLen + total atSend s.workers
  wg_eq : s.wg = total live s.workers + pendingGo s.main
  main_inv : MainInv r₀ s

/-! ## Termination measure -/

/-- Steps a worker standing at the given line still makes before it next reaches line 58
(or exits), counting the steps up to `wg.Done()` once for its final, failing check. -/
def workerFuel : WorkerPc → Nat
  | .lock => 4
  | .check => 3
  | .unlockBreak => 2
  | .incr => 2
  | .unlockWork => 7
  | .doCall => 6
  | .send _ => 5
  | .wgDone => 1
  | .exited => 0

/-- Steps the caller still makes, with 4 more for every worker it has yet to spawn. -/
def mainFuel (concurrency : Int) : MainPc → Nat
  | .makeChan => 4 + 7 * concurrency.toNat
  | .loopTest i => 3 + 7 * (concurrency - i).toNat
  | .wgAdd i => 2 + 7 * (concurrency - i).toNat
  | .goStmt i => 1 + 7 * (concurrency - i).toNat
  | .wgWait => 2
  | .ret => 1
  | .returned => 0

/-- An upper bound on the number of steps left in any continuation of the run: every
unclaimed unit of work costs six worker steps. -/
def measure (s : State) : Nat :=
  mainFuel s.req.concurrency s.main + total workerFuel s.workers +
    6 * (s.req.count - s.req.status).toNat

/-! ## Test doubles -/

/-- An example of the capacity bound: `(maxAlloc - hchanSize) / 24` with `maxAlloc = 2^48`
and `hchanSize = 96`, `24` bytes being the size of a `Response`, as on 64-bit Linux. -/
def exampleMaxCap : Int := (2 ^ 48 - 96) / 24

/-- A transport stub that counts its invocations from 1, fails on the odd-numbered ones
and succeeds on the even-numbered ones. -/
def oddFailStub : Transport := fun n _ =>
  if (n + 1) % 2 = 1 then { httpResponse := none, err := some "failed" }
  else { httpResponse := some { statusCode := 200 }, err := none }

/-! ## Accounting for transport results -/

/-- The `Response` a worker holds between the transport call and the push, as a multiset. -/
def held : WorkerPc → Multiset Response
  | .send newRes => {newRes}
  | _ => 0

/-- All responses held by workers. -/
def heldBy (l : List WorkerPc) : Multiset Response := (l.map held).sum

/-- Contents of the channel buffer (empty before `make`). -/
def State.buf (s : State) : List Response :=
  match s.res with
  | none => []
  | some ch => ch.buf

/-- The results of transport invocations number `c₀`, ..., `c₀ + n - 1`. -/
def results (t : Transport) (h : HttpRequest) (c₀ n : Nat) : List Response :=
  (List.range n).map fun k => t (c₀ + k) h

/-- Every transport result so far is either in the buffer or held by exactly one worker. -/
def ResultsInv (t : Transport) (r₀ : Request) (c₀ : Nat) (s : State) : Prop :=
  (s.buf : Multiset Response) + heldBy s.workers = results t r₀.httpRequest c₀ (s.calls - c₀)

/-- A `Response` reports a failed request when its `Error()` is not nil. -/
def Response.isFailure (r : Response) : Bool := r.Error.isSome

/-! ## `float32` arithmetic and `Status` -/

/-- Round a rational to the nearest integer, ties to the even one. -/
def roundTiesEven (x : ℚ) : ℤ :=
  if x - ⌊x⌋ < 1 / 2 then ⌊x⌋
  else if 1 / 2 < x - ⌊x⌋ then ⌊x⌋ + 1
  else if ⌊x⌋ % 2 = 0 then ⌊x⌋
  else ⌊x⌋ + 1

/-- Binary exponent of the unit in the last place of the `float32` nearest to `q`:
24 significant bits, and exponent at least `-126` (below that, subnormals). -/
def ulpExp (q : ℚ) : ℤ := max (Int.log 2 |q|) (-126) - 23

/-- Round a rational to `float32` precision (round to nearest, ties to even), before the
overflow check. -/
def roundF32 (q : ℚ) : ℚ := (2 : ℚ) ^ ulpExp q * roundTiesEven (q / (2 : ℚ) ^ ulpExp q)

/-- Largest finite `float32`, `(2 - 2^-23) * 2^127`. -/
def maxFloat32 : ℚ := 2 ^ 128 - 2 ^ 104

/-- Values of Go's `float32`: NaN, the infinities and the finite values.  The sign of a
zero is not recorded (`==` does not see it). -/
inductive F32 where
  | nan
  | posInf
  | negInf
  | fin (q : ℚ)
  deriving DecidableEq

/-- The `float32` nearest to a rational; overflow gives an infinity. -/
def F32.ofRat (q : ℚ) : F32 :=
  if maxFloat32 < roundF32 q then .posInf
  else if roundF32 q < -maxFloat32 then .negInf
  else .fin (roundF32 q)

/-- The conversion `float32(n)` of an `int64`. -/
def F32.ofInt64 (n : Int) : F32 := F32.ofRat n

/-- The `float32` quotient `x / y`.  A finite zero divisor is taken as `+0`, the only zero
an integer conversion yields. -/
def F32.div : F32 → F32 → F32
  | .fin a, .fin b =>
      if b = 0 then (if a = 0 then .nan else if 0 < a then .posInf else .negInf)
      else F32.ofRat (a / b)
  | .fin _, .posInf => .fin 0
  | .fin _, .negInf => .fin 0
  | .posInf, .fin b => if 0 ≤ b then .posInf else .negInf
  | .negInf, .fin b => if 0 ≤ b then .negInf else .posInf
  | _, _ => .nan

/-- The `float32` product `x * y`. -/
def F32.mul : F32 → F32 → F32
  | .fin a, .fin b => F32.ofRat (a * b)
  | .posInf, .fin b => if b = 0 then .nan else if 0 < b then .posInf else .negInf
  | .negInf, .fin b => if b = 0 then .nan else if 0 < b then .negInf else .posInf
  | .fin a, .posInf => if a = 0 then .nan else if 0 < a then .posInf else .negInf
  | .fin a, .negInf => if a = 0 then .nan else if 0 < a then .negInf else .posInf
  | .posInf, .posInf => .posInf
  | .negInf, .negInf => .posInf
  | .posInf, .negInf => .negInf
  | .negInf, .posInf => .negInf
  | _, _ => .nan

/-- The value `float32(req.status) / float32(req.count) * 100` of line 85; the constant
`100` is exactly representable. -/
def statusValue (req : Request) : F32 :=
  F32.mul (F32.div (F32.ofInt64 req.status) (F32.ofInt64 req.count)) (.fin 100)

/-- The method `func (req *Request) Status() float32`: it locks the mutex, evaluates line 85
and unlocks again, which leaves `req` as it was.  While a worker holds the mutex the call
waits, so in such a state it yields no value (`none`). -/
def Status (req : Request) : Option F32 :=
  if req.mutex then none else some (statusValue req)

/-- The finite value line 85 computes from a counter `status` and a non-zero `count`:
three roundings, of the two conversions' quotient and of the product with `100`. -/
def percent (status count : Int) : ℚ :=
  roundF32 (roundF32 (roundF32 status / roundF32 count) * 100)

/-! ## Lemmas on worker counts -/

theorem total_nil (f : WorkerPc → Nat) : total f [] = 0 := rfl

theorem total_append (f : WorkerPc → Nat) (l₁ l₂ : List WorkerPc) :
    total f (l₁ ++ l₂) = total f l₁ + total f l₂ := by
  simp [total]

theorem total_snoc (f : WorkerPc → Nat) (l : List WorkerPc) (x : WorkerPc) :
    total f (l ++ [x]) = total f l + f x := by
  simp [total]

theorem total_set (f : WorkerPc → Nat) (x : WorkerPc) :
    ∀ (l : List WorkerPc) (i : Nat) (pc : WorkerPc), l[i]? = some pc →
      total f (l.set i x) + f pc = total f l + f x
  | [], i, pc, h => by simp at h
  | a :: l, 0, pc, h => by
      simp at h
      subst h
      simp [total]
      omega
  | a :: l, i + 1, pc, h => by
      simp at h
      have ih := total_set f x l i pc h
      simp [total] at ih ⊢
      omega

theorem weight_le_total (f : WorkerPc → Nat) :
    ∀ (l : List WorkerPc) (i : Nat) (pc : WorkerPc), l[i]? = some pc → f pc ≤ total f l
  | [], i, pc, h => by simp at h
  | a :: l, 0, pc, h => by
      simp at h
      subst h
      simp [total]
  | a :: l, i + 1, pc, h => by
      simp at h
      have ih := weight_le_total f l i pc h
      simp [total] at ih ⊢
      omega

theorem length_set_pc (l : List WorkerPc) (i : Nat) (x : WorkerPc) :
    (l.set i x).length = l.length := by simp

theorem exists_of_total_pos (f : WorkerPc → Nat) :
    ∀ (l : List WorkerPc), 0 < total f l → ∃ (i : Nat) (pc : WorkerPc), l[i]? = some pc ∧ 0 < f pc
  | [], h => by simp [total] at h
  | a :: l, h => by
      by_cases ha : 0 < f a
      · exact ⟨0, a, by simp, ha⟩
      · have hl : 0 < total f l := by
          simp only [total, List.map_cons, List.sum_cons] at h ⊢
          omega
        obtain ⟨i, pc, h1, h2⟩ := exists_of_total_pos f l hl
        exact ⟨i + 1, pc, by simpa using h1, h2⟩

/-! ## The invariant holds in every reachable state -/

theorem wrapInt64_eq {x : Int} (h₀ : -(2 ^ 63) ≤ x) (h₁ : x ≤ maxInt64) : wrapInt64 x = x := by
  unfold wrapInt64 maxInt64 at *
  omega

theorem atIncr_le_inCrit (l : List WorkerPc) : total atIncr l ≤ total inCrit l := by
  induction l with
  | nil => simp [total]
  | cons a l ih =>
      simp only [total, List.map_cons, List.sum_cons] at ih ⊢
      cases a <;> simp [atIncr, inCrit] <;> omega

theorem atSend_le_inFlight (l : List WorkerPc) : total atSend l ≤ total inFlight l := by
  induction l with
  | nil => simp [total]
  | cons a l ih =>
      simp only [total, List.map_cons, List.sum_cons] at ih ⊢
      cases a <;> simp [atSend, inFlight] <;> omega

theorem Inv.start {maxCap : Int} (r₀ : Request) (c₀ : Nat) (h : r₀.Ready maxCap) : Inv r₀ c₀ (MakeSync.start r₀ c₀) := by
  constructor <;>
    simp [MakeSync.start, total, State.bufLen, MainInv, pendingGo, h.mutex_free, h.status_le]

theorem Inv.stepMain {maxCap : Int} {r₀ : Request} {c₀ : Nat} {s s' : State} (hr : r₀.Ready maxCap)
    (h : Inv r₀ c₀ s) (hs : stepMain maxCap s = some s') : Inv r₀ c₀ s' := by
  obtain ⟨h1, h2, h3, h4, h5, h6, h7, h8, h9, h10, h11, h12, h13⟩ := h
  have hc := hr.status_le
  have hn := hr.status_nonneg
  unfold MainInv at h13
  cases hm : s.main with
  | makeChan =>
      simp only [Benchmark.stepMain, hm, pendingGo] at hs h12 h13
      obtain ⟨hres, hw⟩ := h13
      simp only [State.bufLen, hres] at h10 h11
      have hcap := hr.count_le_cap
      have hcnt : ¬ (s.req.count < 0 ∨ maxCap < s.req.count) := by omega
      simp only [hcnt, if_false, Option.some.injEq] at hs
      subst hs
      constructor <;> dsimp only [MainInv, State.bufLen, pendingGo] <;>
        first
        | assumption
        | omega
        | simp [hw, total, h2]
  | loopTest i =>
      simp only [Benchmark.stepMain, hm, pendingGo] at hs h12 h13
      obtain ⟨hlen, hi, buf, hres⟩ := h13
      split at hs <;> simp only [Option.some.injEq] at hs <;> subst hs <;>
        constructor <;> dsimp only [MainInv, State.bufLen, pendingGo] <;>
        first
        | assumption
        | omega
        | exact ⟨hlen, by omega, buf, hres⟩
        | exact ⟨by omega, buf, hres⟩
  | wgAdd i =>
      simp only [Benchmark.stepMain, hm, pendingGo] at hs h12 h13
      obtain ⟨hlen, hi, buf, hres⟩ := h13
      have hwg : ¬ s.wg + 1 < 0 := by omega
      simp only [hwg, if_false, Option.some.injEq] at hs
      subst hs
      constructor <;> dsimp only [MainInv, State.bufLen, pendingGo] <;>
        first
        | assumption
        | omega
        | exact ⟨hlen, hi, buf, hres⟩
  | goStmt i =>
      simp only [Benchmark.stepMain, hm, pendingGo, Option.some.injEq] at hs h12 h13
      obtain ⟨hlen, hi, buf, hres⟩ := h13
      subst hs
      constructor <;> dsimp only [MainInv, State.bufLen, pendingGo] <;>
        (try simp only [total_snoc, inCrit, atIncr, inFlight, atSend, sawDone, live,
          add_zero]) <;>
        first
        | assumption
        | omega
        | (refine ⟨?_, Or.inl (by omega), buf, hres⟩; simp; omega)
  | wgWait =>
      simp only [Benchmark.stepMain, hm, pendingGo] at hs h12 h13
      obtain ⟨hlen, buf, hres⟩ := h13
      split at hs
      · simp only [Option.some.injEq] at hs
        subst hs
        constructor <;> dsimp only [MainInv, State.bufLen, pendingGo] <;>
          first
          | assumption
          | omega
          | exact ⟨hlen, by omega, buf, hres⟩
      · simp at hs
  | ret =>
      simp only [Benchmark.stepMain, hm, pendingGo] at hs h12 h13
      obtain ⟨hlen, hlive, buf, hres⟩ := h13
      simp only [hres, Bool.false_eq_true, if_false, Option.some.injEq] at hs
      subst hs
      simp only [State.bufLen, hres] at h10 h11
      constructor <;> dsimp only [MainInv, State.bufLen, pendingGo] <;>
        first
        | assumption
        | omega
        | exact ⟨hlen, hlive, buf, rfl⟩
  | returned =>
      simp [Benchmark.stepMain, hm] at hs

theorem MainInv.of_worker {r₀ : Request} {s s' : State} (h : MainInv r₀ s)
    (hm : s'.main = s.main) (hw : s'.workers.length = s.workers.length)
    (hl : total live s'.workers ≤ total live s.workers)
    (hres : ∀ ch, s.res = some ch → ∃ buf, s'.res = some { ch with buf := buf })
    (hnone : s.res = none → s'.res = none) : MainInv r₀ s' := by
  unfold MainInv at h ⊢
  rw [hm]
  cases hmain : s.main <;> simp only [hmain] at h ⊢
  · refine ⟨hnone h.1, ?_⟩
    have := h.2
    rw [this] at hw
    exact List.length_eq_zero.mp hw
  · obtain ⟨h1, h2, buf, h3⟩ := h
    obtain ⟨buf', h4⟩ := hres _ h3
    exact ⟨by omega, h2, buf', h4⟩
  · obtain ⟨h1, h2, buf, h3⟩ := h
    obtain ⟨buf', h4⟩ := hres _ h3
    exact ⟨by omega, h2, buf', h4⟩
  · obtain ⟨h1, h2, buf, h3⟩ := h
    obtain ⟨buf', h4⟩ := hres _ h3
    exact ⟨by omega, h2, buf', h4⟩
  · obtain ⟨h1, buf, h3⟩ := h
    obtain ⟨buf', h4⟩ := hres _ h3
    exact ⟨by omega, buf', h4⟩
  · obtain ⟨h1, h2, buf, h3⟩ := h
    obtain ⟨buf', h4⟩ := hres _ h3
    exact ⟨by omega, by omega, buf', h4⟩
  · obtain ⟨h1, h2, buf, h3⟩ := h
    obtain ⟨buf', h4⟩ := hres _ h3
    exact ⟨by omega, by omega, buf', h4⟩

theorem MainInv.of_setPc {r₀ : Request} {s s' : State} {i : Nat} {x : WorkerPc}
    (h : MainInv r₀ s) (hl : total live (s.workers.set i x) ≤ total live s.workers)
    (hm : s'.main = s.main) (hw : s'.workers = s.workers.set i x) (hres : s'.res = s.res) :
    MainInv r₀ s' := by
  apply MainInv.of_worker h hm
  · rw [hw, List.length_set]
  · rw [hw]
    exact hl
  · intro ch hch
    exact ⟨ch.buf, by rw [hres, hch]⟩
  · intro hn
    rw [hres, hn]

theorem Inv.stepWorker {r₀ : Request} {c₀ : Nat} {maxCap : Int} {t : Transport} {s s' : State} {i : Nat}
    (hr : r₀.Ready maxCap) (h : Inv r₀ c₀ s) (hs : stepWorker t s i = some s') : Inv r₀ c₀ s' := by
  obtain ⟨h1, h2, h3, h4, h5, h6, h7, h8, h9, h10, h11, h12, h13⟩ := h
  have hc := hr.status_le
  have hn := hr.status_nonneg
  have hmax := hr.count_le
  have hic := atIncr_le_inCrit s.workers
  unfold Benchmark.stepWorker at hs
  cases hpc : s.workers[i]? with
  | none => simp [hpc] at hs
  | some pc =>
      simp only [hpc] at hs
      have g1 := weight_le_total inCrit s.workers i pc hpc
      have g2 := weight_le_total atIncr s.workers i pc hpc
      have e1 := fun x => total_set inCrit x s.workers i pc hpc
      have e2 := fun x => total_set atIncr x s.workers i pc hpc
      have e3 := fun x => total_set inFlight x s.workers i pc hpc
      have e4 := fun x => total_set atSend x s.workers i pc hpc
      have e5 := fun x => total_set sawDone x s.workers i pc hpc
      have e6 := fun x => total_set live x s.workers i pc hpc
      cases pc with
      | lock =>
          cases hmx : s.req.mutex <;>
            simp only [stepWorkerAt, hmx, ↓reduceIte, Bool.false_eq_true, Option.some.injEq,
              reduceCtorEq] at hs h7
          subst hs
          have e1 := e1 .check
          have e2 := e2 .check
          have e3 := e3 .check
          have e4 := e4 .check
          have e5 := e5 .check
          have e6 := e6 .check
          simp only [inCrit, atIncr, inFlight, atSend, sawDone, live] at e1 e2 e3 e4 e5 e6
          constructor <;> dsimp only [State.setPc, State.bufLen] <;>
            (try simp only [hmx, ↓reduceIte, Bool.false_eq_true]) <;>
            first
            | assumption
            | omega
            | (simp only [State.bufLen] at h10 h11; omega)
            | (refine MainInv.of_setPc h13 ?_ rfl rfl rfl; omega)
      | check =>
          simp only [stepWorkerAt] at hs
          have hcrit := weight_le_total inCrit s.workers i _ hpc
          simp only [inCrit] at hcrit
          cases hmx : s.req.mutex <;>
            simp only [hmx, ↓reduceIte, Bool.false_eq_true] at h7
          · omega
          split at hs <;> rename_i hge <;> simp only [Option.some.injEq] at hs <;> subst hs
          ·
            have e1 := e1 .unlockBreak
            have e2 := e2 .unlockBreak
            have e3 := e3 .unlockBreak
            have e4 := e4 .unlockBreak
            have e5 := e5 .unlockBreak
            have e6 := e6 .unlockBreak
            simp only [inCrit, atIncr, inFlight, atSend, sawDone, live] at e1 e2 e3 e4 e5 e6
            constructor <;> dsimp only [State.setPc, State.bufLen] <;>
              (try simp only [hmx, ↓reduceIte, Bool.false_eq_true]) <;>
              first
              | assumption
              | omega
              | (simp only [State.bufLen] at h10 h11; omega)
              | (refine MainInv.of_setPc h13 ?_ rfl rfl rfl; omega)
          ·
            have e1 := e1 .incr
            have e2 := e2 .incr
            have e3 := e3 .incr
            have e4 := e4 .incr
            have e5 := e5 .incr
            have e6 := e6 .incr
            simp only [inCrit, atIncr, inFlight, atSend, sawDone, live] at e1 e2 e3 e4 e5 e6
            constructor <;> dsimp only [State.setPc, State.bufLen] <;>
              (try simp only [hmx, ↓reduceIte, Bool.false_eq_true]) <;>
              first
              | assumption
              | omega
              | (simp only [State.bufLen] at h10 h11; omega)
              | (refine MainInv.of_setPc h13 ?_ rfl rfl rfl; omega)
      | unlockBreak =>
          simp only [inCrit] at g1
          cases hmx : s.req.mutex <;>
            simp only [stepWorkerAt, hmx, ↓reduceIte, Bool.false_eq_true, Option.some.injEq,
              reduceCtorEq] at hs h7
          · omega
          subst hs
          have e1 := e1 .wgDone
          have e2 := e2 .wgDone
          have e3 := e3 .wgDone
          have e4 := e4 .wgDone
          have e5 := e5 .wgDone
          have e6 := e6 .wgDone
          simp only [inCrit, atIncr, inFlight, atSend, sawDone, live] at e1 e2 e3 e4 e5 e6 g1 g2
          constructor <;> dsimp only [State.setPc, State.bufLen] <;>
            (try simp only [hmx, ↓reduceIte, Bool.false_eq_true]) <;>
            first
            | assumption
            | omega
            | (simp only [State.bufLen] at h10 h11; omega)
            | (refine MainInv.of_setPc h13 ?_ rfl rfl rfl; omega)
      | incr =>
          simp only [inCrit, atIncr] at g1 g2
          cases hmx : s.req.mutex <;>
            simp only [stepWorkerAt, hmx, ↓reduceIte, Bool.false_eq_true, Option.some.injEq,
              reduceCtorEq] at hs h7
          · omega
          have hlt := h8 (by omega)
          have hwrap : wrapInt64 (s.req.status + 1) = s.req.status + 1 :=
            wrapInt64_eq (by omega) (by omega)
          rw [hwrap] at hs
          subst hs
          have e1 := e1 .unlockWork
          have e2 := e2 .unlockWork
          have e3 := e3 .unlockWork
          have e4 := e4 .unlockWork
          have e5 := e5 .unlockWork
          have e6 := e6 .unlockWork
          simp only [inCrit, atIncr, inFlight, atSend, sawDone, live] at e1 e2 e3 e4 e5 e6 g1 g2
          constructor <;> dsimp only [State.setPc, State.bufLen] <;>
            (try simp only [hmx, ↓reduceIte, Bool.false_eq_true]) <;>
            first
            | assumption
            | omega
            | (simp only [State.bufLen] at h10 h11; omega)
            | (refine MainInv.of_setPc h13 ?_ rfl rfl rfl; omega)
      | unlockWork =>
          simp only [inCrit] at g1
          cases hmx : s.req.mutex <;>
            simp only [stepWorkerAt, hmx, ↓reduceIte, Bool.false_eq_true, Option.some.injEq,
              reduceCtorEq] at hs h7
          · omega
          subst hs
          have e1 := e1 .doCall
          have e2 := e2 .doCall
          have e3 := e3 .doCall
          have e4 := e4 .doCall
          have e5 := e5 .doCall
          have e6 := e6 .doCall
          simp only [inCrit, atIncr, inFlight, atSend, sawDone, live] at e1 e2 e3 e4 e5 e6 g1 g2
          constructor <;> dsimp only [State.setPc, State.bufLen] <;>
            (try simp only [hmx, ↓reduceIte, Bool.false_eq_true]) <;>
            first
            | assumption
            | omega
            | (simp only [State.bufLen] at h10 h11; omega)
            | (refine MainInv.of_setPc h13 ?_ rfl rfl rfl; omega)
      | doCall =>
          simp only [stepWorkerAt, Option.some.injEq] at hs
          cases hmx : s.req.mutex <;> simp only [hmx, ↓reduceIte, Bool.false_eq_true] at h7 <;>
            subst hs
          all_goals
          have e1 := e1 (.send (t s.calls s.req.httpRequest))
          have e2 := e2 (.send (t s.calls s.req.httpRequest))
          have e3 := e3 (.send (t s.calls s.req.httpRequest))
          have e4 := e4 (.send (t s.calls s.req.httpRequest))
          have e5 := e5 (.send (t s.calls s.req.httpRequest))
          have e6 := e6 (.send (t s.calls s.req.httpRequest))
          simp only [inCrit, atIncr, inFlight, atSend, sawDone, live] at e1 e2 e3 e4 e5 e6 g1 g2
          constructor <;> dsimp only [State.setPc, State.bufLen] <;>
            (try simp only [hmx, ↓reduceIte, Bool.false_eq_true]) <;>
            first
            | assumption
            | omega
            | (simp only [State.bufLen] at h10 h11; omega)
            | (refine MainInv.of_setPc h13 ?_ rfl rfl rfl; omega)
      | wgDone =>
          have g6 := weight_le_total live s.workers i _ hpc
          simp only [live] at g6
          have hwg : ¬ s.wg - 1 < 0 := by omega
          simp only [stepWorkerAt, hwg, ↓reduceIte, Option.some.injEq] at hs
          cases hmx : s.req.mutex <;> simp only [hmx, ↓reduceIte, Bool.false_eq_true] at h7 <;>
            subst hs
          all_goals
          have e1 := e1 .exited
          have e2 := e2 .exited
          have e3 := e3 .exited
          have e4 := e4 .exited
          have e5 := e5 .exited
          have e6 := e6 .exited
          simp only [inCrit, atIncr, inFlight, atSend, sawDone, live] at e1 e2 e3 e4 e5 e6 g1 g2
          constructor <;> dsimp only [State.setPc, State.bufLen] <;>
            (try simp only [hmx, ↓reduceIte, Bool.false_eq_true]) <;>
            first
            | assumption
            | omega
            | (simp only [State.bufLen] at h10 h11; omega)
            | (refine MainInv.of_setPc h13 ?_ rfl rfl rfl; omega)
      | exited => simp [stepWorkerAt] at hs
      | send newRes =>
          simp only [stepWorkerAt] at hs
          cases hres : s.res with
          | none => simp [hres] at hs
          | some ch =>
              simp only [hres] at hs
              simp only [State.bufLen, hres] at h10 h11
              have hopen : ch.closed = false ∨ total live s.workers = 0 := by
                unfold MainInv at h13
                cases hmain : s.main <;> simp only [hmain, hres] at h13
                · simp at h13
                · obtain ⟨_, _, buf, hb⟩ := h13
                  simp only [Option.some.injEq] at hb
                  subst hb
                  exact Or.inl rfl
                · obtain ⟨_, _, buf, hb⟩ := h13
                  simp only [Option.some.injEq] at hb
                  subst hb
                  exact Or.inl rfl
                · obtain ⟨_, _, buf, hb⟩ := h13
                  simp only [Option.some.injEq] at hb
                  subst hb
                  exact Or.inl rfl
                · obtain ⟨_, buf, hb⟩ := h13
                  simp only [Option.some.injEq] at hb
                  subst hb
                  exact Or.inl rfl
                · exact Or.inr h13.2.1
                · exact Or.inr h13.2.1
              have g6 := weight_le_total live s.workers i _ hpc
              simp only [live] at g6
              have hcl : ch.closed = false := by
                rcases hopen with h | h
                · exact h
                · omega
              simp only [hcl, Bool.false_eq_true, ↓reduceIte] at hs
              split at hs
              · simp only [Option.some.injEq] at hs
                cases hmx : s.req.mutex <;>
                  simp only [hmx, ↓reduceIte, Bool.false_eq_true] at h7 <;> subst hs
                all_goals
                  have e1 := e1 .lock
                  have e2 := e2 .lock
                  have e3 := e3 .lock
                  have e4 := e4 .lock
                  have e5 := e5 .lock
                  have e6 := e6 .lock
                  simp only [inCrit, atIncr, inFlight, atSend, sawDone, live] at e1 e2 e3 e4 e5 e6
                  constructor <;> dsimp only [State.setPc, State.bufLen] <;>
                    (try simp only [hmx, ↓reduceIte, Bool.false_eq_true, List.length_append,
                      List.length_singleton, Nat.cast_add, Nat.cast_one]) <;>
                    first
                    | assumption
                    | omega
                    | (refine MainInv.of_worker h13 ?_ ?_ ?_ ?_ ?_
                       · rfl
                       · simp
                       · simp only []
                         omega
                       · intro ch' hch'
                         rw [hres] at hch'
                         simp only [Option.some.injEq] at hch'
                         subst hch'
                         exact ⟨ch.buf ++ [newRes], by simp [hcl]⟩
                       · intro hnone
                         rw [hres] at hnone
                         simp at hnone)
              · simp at hs

theorem Inv.step {r₀ : Request} {c₀ : Nat} {maxCap : Int} {t : Transport} {s s' : State} {a : Actor}
    (hr : r₀.Ready maxCap) (h : Inv r₀ c₀ s) (hs : step maxCap t s a = some s') : Inv r₀ c₀ s' := by
  unfold Benchmark.step at hs
  simp only [h.not_panicked, Bool.false_eq_true, if_false] at hs
  cases a with
  | main => exact h.stepMain hr hs
  | worker i => exact h.stepWorker hr hs

theorem Inv.of_reachable {r₀ : Request} {c₀ : Nat} {maxCap : Int} {t : Transport} {s : State}
    (hr : r₀.Ready maxCap) (h : Reachable maxCap t (MakeSync.start r₀ c₀) s) : Inv r₀ c₀ s := by
  induction h with
  | refl => exact Inv.start r₀ c₀ hr
  | tail a _ hs ih => exact ih.step hr hs

theorem Reachable.trans {maxCap : Int} {t : Transport} {s₀ s₁ s₂ : State} (h₁ : Reachable maxCap t s₀ s₁)
    (h₂ : Reachable maxCap t s₁ s₂) : Reachable maxCap t s₀ s₂ := by
  induction h₂ with
  | refl => exact h₁
  | tail a _ hs ih => exact Reachable.tail a ih hs

theorem Reachable.of_exec {maxCap : Int} {t : Transport} :
    ∀ (sched : List Actor) (s s' : State), exec maxCap t s sched = some s' → Reachable maxCap t s s'
  | [], s, s', h => by
      simp only [exec, Option.some.injEq] at h
      subst h
      exact Reachable.refl
  | a :: as, s, s', h => by
      simp only [exec] at h
      cases hstep : step maxCap t s a with
      | none => simp [hstep] at h
      | some s₁ =>
          simp only [hstep, Option.some_bind] at h
          exact (Reachable.tail a Reachable.refl hstep).trans (Reachable.of_exec as s₁ s' h)

theorem NewRequest_ready {maxCap : Int} (h : HttpRequest) (count concurrency : Int)
    (h₀ : 0 ≤ count) (h₁ : count ≤ maxInt64) (h₂ : count ≤ maxCap) :
    (NewRequest h count concurrency).Ready maxCap :=
  ⟨rfl, le_refl _, h₀, h₁, h₂⟩

/-- When no worker is live, every worker has exited. -/
theorem total_live_eq_zero {l : List WorkerPc} (h : total live l = 0) :
    total inFlight l = 0 ∧ total inCrit l = 0 ∧ total sawDone l = l.length ∧
      ∀ pc ∈ l, pc = WorkerPc.exited := by
  induction l with
  | nil => simp [total]
  | cons a l ih =>
      simp only [total, List.map_cons, List.sum_cons] at h ih ⊢
      cases a <;> simp [live] at h
      obtain ⟨h1, h2, h3, h4⟩ := ih h
      refine ⟨?_, ?_, ?_, ?_⟩
      · simpa [inFlight] using h1
      · simpa [inCrit] using h2
      · simp [sawDone, h3]
        omega
      · simpa using h4

/-- The state in which `MakeSync`, started on a ready request, returns. -/
theorem Inv.at_return {r₀ : Request} {c₀ : Nat} {s : State} (h : Inv r₀ c₀ s)
    (hconc : 1 ≤ r₀.concurrency) (hret : s.main = .returned) :
    s.req.status = r₀.count ∧ s.req.mutex = false ∧ s.calls = c₀ + s.bufLen ∧
      (r₀.status + (s.bufLen : Int) = r₀.count) ∧
      (∀ pc ∈ s.workers, pc = WorkerPc.exited) ∧
      ∃ buf, s.res = some { cap := r₀.count, buf := buf, closed := true } := by
  have hm := h.main_inv
  unfold MainInv at hm
  simp only [hret] at hm
  obtain ⟨hlen, hlive, buf, hres⟩ := hm
  obtain ⟨hf, hcr, hd, hex⟩ := total_live_eq_zero hlive
  have h7 := h.mutex_crit
  have h9 := h.done_ge
  have h10 := h.claimed_eq
  have h11 := h.calls_eq
  have h6 := h.status_le
  have hs : 0 < total sawDone s.workers := by omega
  have hge := h9 hs
  have hat := atSend_le_inFlight s.workers
  refine ⟨by omega, ?_, by omega, by omega, hex, buf, hres⟩
  cases hmx : s.req.mutex
  · rfl
  · simp [hmx] at h7
    omega

/-- A step changes `status` only at line 64, and then by exactly one. -/
theorem Inv.step_status {r₀ : Request} {c₀ : Nat} {maxCap : Int} {t : Transport} {s s' : State} {a : Actor}
    (hr : r₀.Ready maxCap) (h : Inv r₀ c₀ s) (hs : Benchmark.step maxCap t s a = some s') :
    s'.req.status = s.req.status ∨ s'.req.status = s.req.status + 1 := by
  have h8 := h.incr_lt
  have h5 := h.status_ge
  have hn := hr.status_nonneg
  have hmax := hr.count_le
  unfold Benchmark.step at hs
  simp only [h.not_panicked, Bool.false_eq_true, if_false] at hs
  cases a with
  | main =>
      left
      unfold Benchmark.stepMain at hs
      cases hmain : s.main <;> simp only [hmain] at hs
      · split at hs <;> simp only [Option.some.injEq] at hs <;> subst hs <;> rfl
      · split at hs <;> simp only [Option.some.injEq] at hs <;> subst hs <;> rfl
      · split at hs <;> simp only [Option.some.injEq] at hs <;> subst hs <;> rfl
      · simp only [Option.some.injEq] at hs
        subst hs
        rfl
      · split at hs
        · simp only [Option.some.injEq] at hs
          subst hs
          rfl
        · simp at hs
      · split at hs
        · simp only [Option.some.injEq] at hs
          subst hs
          rfl
        · split at hs <;> simp only [Option.some.injEq] at hs <;> subst hs <;> rfl
      · simp at hs
  | worker i =>
      unfold Benchmark.stepWorker at hs
      cases hpc : s.workers[i]? with
      | none => simp [hpc] at hs
      | some pc =>
          simp only [hpc] at hs
          have g2 := weight_le_total atIncr s.workers i pc hpc
          cases pc <;> simp only [stepWorkerAt] at hs
          · split at hs
            · simp at hs
            · simp only [Option.some.injEq] at hs
              subst hs
              exact Or.inl rfl
          · split at hs <;> simp only [Option.some.injEq] at hs <;> subst hs <;> exact Or.inl rfl
          · split at hs <;> simp only [Option.some.injEq] at hs <;> subst hs <;> exact Or.inl rfl
          · simp only [Option.some.injEq] at hs
            simp only [atIncr] at g2
            have hlt := h8 (by omega)
            have hwrap : wrapInt64 (s.req.status + 1) = s.req.status + 1 :=
              wrapInt64_eq (by omega) (by omega)
            rw [hwrap] at hs
            subst hs
            exact Or.inr rfl
          · split at hs <;> simp only [Option.some.injEq] at hs <;> subst hs <;> exact Or.inl rfl
          · simp only [Option.some.injEq] at hs
            subst hs
            exact Or.inl rfl
          · cases hres : s.res with
            | none => simp [hres] at hs
            | some ch =>
                simp only [hres] at hs
                split at hs
                · simp only [Option.some.injEq] at hs
                  subst hs
                  exact Or.inl rfl
                · split at hs
                  · simp only [Option.some.injEq] at hs
                    subst hs
                    exact Or.inl rfl
                  · simp at hs
          · split at hs <;> simp only [Option.some.injEq] at hs <;> subst hs <;> exact Or.inl rfl
          · simp at hs

/-- The channel, once made, has capacity `count`; it is closed exactly when `MakeSync`
has returned, and then no worker is live. -/
theorem Inv.chan_facts {r₀ : Request} {c₀ : Nat} {s : State} (h : Inv r₀ c₀ s) (ch : Chan)
    (hres : s.res = some ch) :
    ch.cap = r₀.count ∧ (ch.closed = true → s.main = .returned ∧ total live s.workers = 0) ∧
      (total live s.workers ≠ 0 → ch.closed = false) := by
  have hm := h.main_inv
  unfold MainInv at hm
  cases hmain : s.main <;> simp only [hmain, hres] at hm
  · simp at hm
  · obtain ⟨_, _, buf, hb⟩ := hm
    simp only [Option.some.injEq] at hb
    subst hb
    simp
  · obtain ⟨_, _, buf, hb⟩ := hm
    simp only [Option.some.injEq] at hb
    subst hb
    simp
  · obtain ⟨_, _, buf, hb⟩ := hm
    simp only [Option.some.injEq] at hb
    subst hb
    simp
  · obtain ⟨_, buf, hb⟩ := hm
    simp only [Option.some.injEq] at hb
    subst hb
    simp
  · obtain ⟨_, hl, buf, hb⟩ := hm
    simp only [Option.some.injEq] at hb
    subst hb
    simp [hl]
  · obtain ⟨_, hl, buf, hb⟩ := hm
    simp only [Option.some.injEq] at hb
    subst hb
    simp [hl]

/-- A worker exists only after the channel has been made. -/
theorem Inv.res_of_worker {r₀ : Request} {c₀ : Nat} {s : State} (h : Inv r₀ c₀ s) (i : Nat)
    (pc : WorkerPc) (hpc : s.workers[i]? = some pc) : ∃ ch, s.res = some ch := by
  have hm := h.main_inv
  unfold MainInv at hm
  cases hres : s.res with
  | some ch => exact ⟨ch, rfl⟩
  | none =>
      cases hmain : s.main <;> simp only [hmain, hres] at hm
      · rw [hm.2] at hpc
        simp at hpc
      all_goals simp at hm

theorem stepWorker_exited {t : Transport} {s : State} (hall : ∀ pc ∈ s.workers, pc = .exited)
    (i : Nat) : stepWorker t s i = none := by
  unfold stepWorker
  cases hpc : s.workers[i]? with
  | none => rfl
  | some pc =>
      have hmem : pc ∈ s.workers := List.getElem?_mem hpc
      have := hall pc hmem
      subst this
      rfl

/-- The counter never decreases along a run. -/
theorem status_mono_of_reachable {r₀ : Request} {c₀ : Nat} {maxCap : Int} {t : Transport} {s s' : State}
    (hr : r₀.Ready maxCap) (h₁ : Reachable maxCap t (MakeSync.start r₀ c₀) s) (h₂ : Reachable maxCap t s s') :
    Reachable maxCap t (MakeSync.start r₀ c₀) s' ∧ s.req.status ≤ s'.req.status := by
  induction h₂ with
  | refl => exact ⟨h₁, le_refl _⟩
  | tail a _ hs ih =>
      obtain ⟨hreach, hle⟩ := ih
      refine ⟨Reachable.tail a hreach hs, ?_⟩
      rcases (Inv.of_reachable hr hreach).step_status hr hs with h | h <;> omega

/-- When `make` fails, the run consists of the entry state and the panic. -/
theorem reachable_of_make_fails {maxCap : Int} {t : Transport} {r : Request} {c : Nat}
    {s : State} (hfail : r.count < 0 ∨ maxCap < r.count)
    (h : Reachable maxCap t (MakeSync.start r c) s) :
    s = MakeSync.start r c ∨ s = { MakeSync.start r c with panicked := true } := by
  induction h with
  | refl => exact Or.inl rfl
  | tail a _ hs ih =>
      rcases ih with heq | heq
      · subst heq
        cases a with
        | main =>
            simp only [step, MakeSync.start, Bool.false_eq_true, if_false, stepMain, hfail,
              if_true, Option.some.injEq] at hs
            exact Or.inr hs.symm
        | worker i =>
            simp [step, MakeSync.start, stepWorker] at hs
      · subst heq
        simp [step] at hs

/-- A run on a fresh request either satisfies the invariant or is stuck at a `make` that
cannot allocate. -/
theorem reachable_cases {maxCap : Int} {t : Transport} (h : HttpRequest)
    (count concurrency : Int) (h₀ : 0 ≤ count) (h₁ : count ≤ maxInt64) {s : State}
    (hreach : Reachable maxCap t (MakeSync.start (NewRequest h count concurrency) 0) s) :
    (count ≤ maxCap ∧ Inv (NewRequest h count concurrency) 0 s) ∨
      (maxCap < count ∧
        (s = MakeSync.start (NewRequest h count concurrency) 0 ∨
          s = { MakeSync.start (NewRequest h count concurrency) 0 with panicked := true })) := by
  rcases le_or_lt count maxCap with hle | hlt
  · exact Or.inl ⟨hle, Inv.of_reachable (NewRequest_ready h count concurrency h₀ h₁ hle) hreach⟩
  · exact Or.inr ⟨hlt, reachable_of_make_fails (Or.inr hlt) hreach⟩

/-- A worker standing at line 68 finds the channel open and not full: its push is enabled
and takes it back to line 58, whatever the response it holds. -/
theorem Inv.send_enabled {maxCap : Int} {r₀ : Request} {c₀ : Nat} {t : Transport} {s : State}
    (hr : r₀.Ready maxCap) (hinv : Inv r₀ c₀ s) (i : Nat) (newRes : Response)
    (hpc : s.workers[i]? = some (.send newRes)) :
    ∃ ch, s.res = some ch ∧ ch.closed = false ∧ (ch.buf.length : Int) < r₀.count ∧
      Benchmark.step maxCap t s (.worker i) =
        some ({ s with res := some { ch with buf := ch.buf ++ [newRes] } }.setPc i .lock) := by
  obtain ⟨ch, hres⟩ := hinv.res_of_worker i _ hpc
  obtain ⟨hcap, _, hopen⟩ := hinv.chan_facts ch hres
  have g3 := weight_le_total inFlight s.workers i _ hpc
  have g6 := weight_le_total live s.workers i _ hpc
  simp only [inFlight, live] at g3 g6
  have hcl : ch.closed = false := hopen (by omega)
  have h10 := hinv.claimed_eq
  have h6 := hinv.status_le
  have hn := hr.status_nonneg
  simp only [State.bufLen, hres] at h10 h6
  have hlt : (ch.buf.length : Int) < r₀.count := by omega
  refine ⟨ch, hres, hcl, hlt, ?_⟩
  have hlt' : (ch.buf.length : Int) < ch.cap := by
    rw [hcap]
    exact hlt
  simp [Benchmark.step, hinv.not_panicked, Benchmark.stepWorker, hpc, stepWorkerAt, hres, hcl,
    hlt']

/-- What the two states of a run stuck at `make` look like, and that no step changes the
request. -/
theorem stuck_facts {maxCap : Int} {t : Transport} {r : Request} {c : Nat} {s : State}
    (hfail : r.count < 0 ∨ maxCap < r.count)
    (hs : s = MakeSync.start r c ∨ s = { MakeSync.start r c with panicked := true }) :
    s.req = r ∧ s.workers = [] ∧ s.res = none ∧ s.main = .makeChan ∧ s.calls = c ∧
      ∀ a s', step maxCap t s a = some s' → s'.req = s.req := by
  rcases hs with heq | heq
  · subst heq
    refine ⟨rfl, rfl, rfl, rfl, rfl, ?_⟩
    intro a s' hstep
    cases a with
    | main =>
        simp only [step, MakeSync.start, Bool.false_eq_true, if_false, stepMain, hfail,
          if_true, Option.some.injEq] at hstep
        rw [← hstep]
        rfl
    | worker i =>
        simp [step, MakeSync.start, stepWorker] at hstep
  · subst heq
    refine ⟨rfl, rfl, rfl, rfl, rfl, ?_⟩
    intro a s' hstep
    simp [step] at hstep

/-! ## Termination: every step uses up fuel, and a run that has not returned can move -/

theorem measure_stepMain {maxCap : Int} {r₀ : Request} {c₀ : Nat} {s s' : State} (hr : r₀.Ready maxCap)
    (h : Inv r₀ c₀ s) (hs : stepMain maxCap s = some s') : measure s' < measure s := by
  have hm := h.main_inv
  have h2 := h.count_eq
  have h3 := h.concurrency_eq
  have h12 := h.wg_eq
  have hc := hr.status_le
  have hn := hr.status_nonneg
  unfold MainInv at hm
  unfold Benchmark.stepMain at hs
  cases hmain : s.main <;> simp only [hmain, pendingGo] at hs hm h12
  · have hcap := hr.count_le_cap
    have hcnt : ¬ (s.req.count < 0 ∨ maxCap < s.req.count) := by omega
    simp only [hcnt, if_false, Option.some.injEq] at hs
    subst hs
    simp only [measure, hmain, mainFuel]
    omega
  · split at hs <;> simp only [Option.some.injEq] at hs <;> subst hs <;>
      simp only [measure, hmain, mainFuel] <;> omega
  · have hwg : ¬ s.wg + 1 < 0 := by omega
    simp only [hwg, if_false, Option.some.injEq] at hs
    subst hs
    simp only [measure, hmain, mainFuel]
    omega
  · simp only [Option.some.injEq] at hs
    subst hs
    simp only [measure, hmain, mainFuel, total_snoc, workerFuel]
    omega
  · split at hs
    · simp only [Option.some.injEq] at hs
      subst hs
      simp only [measure, hmain, mainFuel]
      omega
    · simp at hs
  · obtain ⟨_, _, buf, hres⟩ := hm
    simp only [hres, Bool.false_eq_true, if_false, Option.some.injEq] at hs
    subst hs
    simp only [measure, hmain, mainFuel]
    omega
  · simp at hs

theorem measure_stepWorker {r₀ : Request} {c₀ : Nat} {maxCap : Int} {t : Transport} {s s' : State} {i : Nat}
    (hr : r₀.Ready maxCap) (h : Inv r₀ c₀ s) (hs : stepWorker t s i = some s') :
    measure s' < measure s := by
  have h2 := h.count_eq
  have h8 := h.incr_lt
  have h6 := h.status_le
  have h5 := h.status_ge
  have hn := hr.status_nonneg
  have hmax := hr.count_le
  have hnp := (h.stepWorker hr hs).not_panicked
  unfold Benchmark.stepWorker at hs
  cases hpc : s.workers[i]? with
  | none => simp [hpc] at hs
  | some pc =>
      simp only [hpc] at hs
      have e := fun x => total_set workerFuel x s.workers i pc hpc
      have g2 := weight_le_total atIncr s.workers i pc hpc
      cases pc <;> simp only [stepWorkerAt] at hs
      · split at hs
        · simp at hs
        · simp only [Option.some.injEq] at hs
          subst hs
          have e := e .check
          simp only [measure, State.setPc, workerFuel] at e ⊢
          omega
      · split at hs <;> simp only [Option.some.injEq] at hs <;> subst hs
        · have e := e .unlockBreak
          simp only [measure, State.setPc, workerFuel] at e ⊢
          omega
        · have e := e .incr
          simp only [measure, State.setPc, workerFuel] at e ⊢
          omega
      · split at hs <;> simp only [Option.some.injEq] at hs <;> subst hs
        · have e := e .wgDone
          simp only [measure, State.setPc, workerFuel] at e ⊢
          omega
        · simp at hnp
      · simp only [Option.some.injEq] at hs
        simp only [atIncr] at g2
        have hlt := h8 (by omega)
        have hwrap : wrapInt64 (s.req.status + 1) = s.req.status + 1 :=
          wrapInt64_eq (by omega) (by omega)
        rw [hwrap] at hs
        subst hs
        have e := e .unlockWork
        simp only [measure, State.setPc, workerFuel] at e ⊢
        omega
      · split at hs <;> simp only [Option.some.injEq] at hs <;> subst hs
        · have e := e .doCall
          simp only [measure, State.setPc, workerFuel] at e ⊢
          omega
        · simp at hnp
      · simp only [Option.some.injEq] at hs
        subst hs
        have e := e (.send (t s.calls s.req.httpRequest))
        simp only [measure, State.setPc, workerFuel] at e ⊢
        omega
      · cases hres : s.res with
        | none => simp [hres] at hs
        | some ch =>
            simp only [hres] at hs
            split at hs
            · simp only [Option.some.injEq] at hs
              subst hs
              simp at hnp
            · split at hs
              · simp only [Option.some.injEq] at hs
                subst hs
                have e := e .lock
                simp only [measure, State.setPc, workerFuel] at e ⊢
                omega
              · simp at hs
      · split at hs <;> simp only [Option.some.injEq] at hs <;> subst hs
        · simp at hnp
        · have e := e .exited
          simp only [measure, State.setPc, workerFuel] at e ⊢
          omega
      · simp at hs

theorem measure_step {r₀ : Request} {c₀ : Nat} {maxCap : Int} {t : Transport} {s s' : State} {a : Actor}
    (hr : r₀.Ready maxCap) (h : Inv r₀ c₀ s) (hs : step maxCap t s a = some s') : measure s' < measure s := by
  unfold Benchmark.step at hs
  simp only [h.not_panicked, Bool.false_eq_true, if_false] at hs
  cases a with
  | main => exact measure_stepMain hr h hs
  | worker i => exact measure_stepWorker hr h hs

/-- No schedule runs for more steps than the measure of the state it starts in. -/
theorem exec_length_le {r₀ : Request} {c₀ : Nat} {maxCap : Int} {t : Transport} (hr : r₀.Ready maxCap) :
    ∀ (sched : List Actor) (s s' : State), Inv r₀ c₀ s → exec maxCap t s sched = some s' →
      sched.length + measure s' ≤ measure s
  | [], s, s', _, h => by
      simp only [exec, Option.some.injEq] at h
      subst h
      simp
  | a :: as, s, s', hi, h => by
      simp only [exec] at h
      cases hstep : step maxCap t s a with
      | none => simp [hstep] at h
      | some s₁ =>
          simp only [hstep, Option.some_bind] at h
          have h1 := measure_step hr hi hstep
          have h2 := exec_length_le hr as s₁ s' (hi.step hr hstep) h
          simp only [List.length_cons]
          omega

/-- Deadlock freedom: as long as `MakeSync` has not returned, some goroutine can move. -/
theorem Inv.progress {maxCap : Int} {r₀ : Request} {c₀ : Nat} (t : Transport) {s : State} (hr : r₀.Ready maxCap)
    (h : Inv r₀ c₀ s) (hne : s.main ≠ .returned) : ∃ a s', Benchmark.step maxCap t s a = some s' := by
  have hnp := h.not_panicked
  have hm := h.main_inv
  have h12 := h.wg_eq
  have h7 := h.mutex_crit
  have h10 := h.claimed_eq
  have h6 := h.status_le
  have hn := hr.status_nonneg
  unfold MainInv at hm
  have hmainstep : (Benchmark.stepMain maxCap s).isSome = true →
      ∃ a s', Benchmark.step maxCap t s a = some s' := by
    intro hsome
    obtain ⟨s', hs'⟩ := Option.isSome_iff_exists.mp hsome
    exact ⟨.main, s', by simp [Benchmark.step, hnp, hs']⟩
  cases hmain : s.main <;> simp only [hmain, pendingGo] at hm h12
  · apply hmainstep
    simp only [Benchmark.stepMain, hmain]
    split <;> exact rfl
  · apply hmainstep
    simp only [Benchmark.stepMain, hmain]
    split <;> exact rfl
  · apply hmainstep
    simp only [Benchmark.stepMain, hmain]
    split <;> exact rfl
  · apply hmainstep
    simp only [Benchmark.stepMain, hmain]
    exact rfl
  · by_cases hwg : s.wg = 0
    · apply hmainstep
      simp only [Benchmark.stepMain, hmain, hwg, if_true]
      exact rfl
    · have hlive : 0 < total live s.workers := by omega
      obtain ⟨_, buf, hres⟩ := hm
      have hworker : ∀ i, (Benchmark.stepWorker t s i).isSome = true →
          ∃ a s', Benchmark.step maxCap t s a = some s' := by
        intro i hsome
        obtain ⟨s', hs'⟩ := Option.isSome_iff_exists.mp hsome
        exact ⟨.worker i, s', by simp [Benchmark.step, hnp, hs']⟩
      cases hmx : s.req.mutex
      · obtain ⟨i, pc, hpc, hpos⟩ := exists_of_total_pos live s.workers hlive
        have g3 := weight_le_total inFlight s.workers i pc hpc
        simp only [State.bufLen, hres] at h10
        cases pc <;> simp only [live, lt_self_iff_false] at hpos
        all_goals
          apply hworker i
          simp only [Benchmark.stepWorker, hpc, stepWorkerAt, hmx, hres, Bool.false_eq_true,
            if_false]
        all_goals first
          | exact rfl
          | (split <;> exact rfl)
          | (simp only [inFlight] at g3
             have hlt : ((buf.length : Int) < r₀.count) := by omega
             simp only [hlt, if_true]
             exact rfl)
      · simp only [hmx, if_true] at h7
        obtain ⟨i, pc, hpc, hpos⟩ := exists_of_total_pos inCrit s.workers (by omega)
        cases pc <;> simp only [inCrit, lt_self_iff_false] at hpos
        all_goals
          apply hworker i
          simp only [Benchmark.stepWorker, hpc, stepWorkerAt, hmx, if_true]
        all_goals first
          | exact rfl
          | (split <;> exact rfl)
  · apply hmainstep
    obtain ⟨_, _, buf, hres⟩ := hm
    simp only [Benchmark.stepMain, hmain, hres, Bool.false_eq_true, if_false]
    exact rfl
  · exact absurd hmain hne

/-- From every state of a run some schedule leads to the return of `MakeSync`. -/
theorem Inv.can_return {maxCap : Int} {r₀ : Request} {c₀ : Nat} (t : Transport) (hr : r₀.Ready maxCap) :
    ∀ (n : Nat) (s : State), Inv r₀ c₀ s → measure s ≤ n →
      ∃ sched s', exec maxCap t s sched = some s' ∧ s'.main = .returned
  | 0, s, h, hn => by
      by_cases hret : s.main = .returned
      · exact ⟨[], s, rfl, hret⟩
      · obtain ⟨a, s₁, hs⟩ := h.progress t hr hret
        have := measure_step hr h hs
        omega
  | n + 1, s, h, hn => by
      by_cases hret : s.main = .returned
      · exact ⟨[], s, rfl, hret⟩
      · obtain ⟨a, s₁, hs⟩ := h.progress t hr hret
        have hlt := measure_step hr h hs
        obtain ⟨sched, s', hex, hret'⟩ :=
          Inv.can_return t hr n s₁ (Inv.step hr h hs) (by omega)
        exact ⟨a :: sched, s', by simp [exec, hs, hex], hret'⟩

/-! ## Claims about `MakeSync` -/

/-- C1: for every `count ≥ 0` (an `int64`), every `concurrency ≥ 1`, every transport and
every interleaving, whenever `MakeSync` has returned on a fresh request the counter
`status` equals `count`, and the returned channel is closed and holds exactly `count`
responses.  Moreover, where a channel of capacity `count` can be made (and every transport
call returning), the run does return: from every reachable state some schedule reaches
the return, and no schedule is longer than the initial measure. -/
theorem MakeSync_pushes_exactly_count (maxCap : Int) (t : Transport) (h : HttpRequest)
    (count concurrency : Int) (hcount : 0 ≤ count) (hmax : count ≤ maxInt64)
    (hconc : 1 ≤ concurrency) :
    (∀ s, Reachable maxCap t (MakeSync.start (NewRequest h count concurrency) 0) s →
        s.main = .returned →
        s.req.status = count ∧
          ∃ buf, s.res = some { cap := count, buf := buf, closed := true } ∧
            (buf.length : Int) = count) ∧
      (count ≤ maxCap →
        (∀ s, Reachable maxCap t (MakeSync.start (NewRequest h count concurrency) 0) s →
          ∃ sched s', exec maxCap t s sched = some s' ∧ s'.main = .returned) ∧
        (∀ sched s',
          exec maxCap t (MakeSync.start (NewRequest h count concurrency) 0) sched = some s' →
          sched.length ≤ measure (MakeSync.start (NewRequest h count concurrency) 0))) := by
  refine ⟨?_, ?_⟩
  · intro s hreach hret
    rcases reachable_cases h count concurrency hcount hmax hreach with ⟨_, hinv⟩ | ⟨hlt, hst⟩
    · obtain ⟨h1, _, _, h4, _, buf, hres⟩ := hinv.at_return hconc hret
      refine ⟨h1, buf, hres, ?_⟩
      simp only [State.bufLen, hres, NewRequest] at h4
      simpa [NewRequest] using h4
    · have hm := (stuck_facts (t := t) (Or.inr hlt) hst).2.2.2.1
      rw [hm] at hret
      exact absurd hret (by simp)
  · intro hcap
    have hr := NewRequest_ready h count concurrency hcount hmax hcap
    refine ⟨?_, ?_⟩
    · intro s hreach
      exact Inv.can_return t hr (measure s) s (Inv.of_reachable hr hreach) (le_refl _)
    · intro sched s' hex
      have := exec_length_le hr sched _ s' (Inv.start _ 0 hr) hex
      omega

/-- A run with `count = 1`, `concurrency = 1` under a concrete schedule: it returns with
`status = 1` and one buffered response. -/
theorem MakeSync_pushes_exactly_count_witness :
    ∃ s, exec exampleMaxCap oddFailStub (MakeSync.start (NewRequest ⟨"GET", "u"⟩ 1 1) 0)
        [.main, .main, .main, .main, .worker 0, .worker 0, .worker 0, .worker 0, .worker 0,
         .worker 0, .worker 0, .worker 0, .worker 0, .worker 0, .main, .main, .main] = some s ∧
      s.main = .returned ∧ s.req.status = 1 ∧
      ∃ buf, s.res = some { cap := 1, buf := buf, closed := true } ∧ (buf.length : Int) = 1 := by
  have hrun : ∃ s, exec exampleMaxCap oddFailStub
      (MakeSync.start (NewRequest ⟨"GET", "u"⟩ 1 1) 0)
      [.main, .main, .main, .main, .worker 0, .worker 0, .worker 0, .worker 0, .worker 0,
       .worker 0, .worker 0, .worker 0, .worker 0, .worker 0, .main, .main, .main] = some s ∧
      s.main = .returned := ⟨_, rfl, rfl⟩
  obtain ⟨s, hex, hret⟩ := hrun
  exact ⟨s, hex, hret, (MakeSync_pushes_exactly_count exampleMaxCap oddFailStub ⟨"GET", "u"⟩ 1 1
    (by decide) (by decide) (by decide)).1 s (Reachable.of_exec _ _ _ hex) hret⟩

/-- C2: on a request built by `NewRequest` with `count ≥ 0` (an `int64`) the counter
starts at `0`; in every state reachable during `MakeSync` it satisfies
`0 ≤ status ≤ count`; and every step of every goroutine leaves it unchanged or increases
it by exactly `1`. -/
theorem status_bounded_and_stepwise (maxCap : Int) (t : Transport) (h : HttpRequest)
    (count concurrency : Int) (hcount : 0 ≤ count) (hmax : count ≤ maxInt64) (s : State)
    (hreach : Reachable maxCap t (MakeSync.start (NewRequest h count concurrency) 0) s) :
    (MakeSync.start (NewRequest h count concurrency) 0).req.status = 0 ∧
      0 ≤ s.req.status ∧ s.req.status ≤ count ∧
      ∀ a s', step maxCap t s a = some s' →
        s'.req.status = s.req.status ∨ s'.req.status = s.req.status + 1 := by
  rcases reachable_cases h count concurrency hcount hmax hreach with ⟨hcap, hinv⟩ | ⟨hlt, hst⟩
  · have hr := NewRequest_ready h count concurrency hcount hmax hcap
    refine ⟨rfl, ?_, ?_, ?_⟩
    · simpa [NewRequest] using hinv.status_ge
    · simpa [NewRequest] using hinv.status_le
    · intro a s' hs
      exact hinv.step_status hr hs
  · obtain ⟨hreq, _, _, _, _, hstep⟩ := stuck_facts (t := t) (Or.inr hlt) hst
    refine ⟨rfl, ?_, ?_, ?_⟩
    · rw [hreq]
      exact le_refl _
    · rw [hreq]
      exact hcount
    · intro a s' hs
      exact Or.inl (by rw [hstep a s' hs])

/-- A run with `count = 2` just before line 64: the counter is within bounds and the
next step of the worker increases it by one. -/
theorem status_bounded_and_stepwise_witness :
    ∃ s, exec exampleMaxCap oddFailStub (MakeSync.start (NewRequest ⟨"GET", "u"⟩ 2 1) 0)
        [.main, .main, .main, .main, .worker 0, .worker 0] = some s ∧
      (0 ≤ s.req.status ∧ s.req.status ≤ 2) ∧
      ∃ s', step exampleMaxCap oddFailStub s (.worker 0) = some s' ∧
        s'.req.status = s.req.status + 1 := by
  have hrun : ∃ s, exec exampleMaxCap oddFailStub
      (MakeSync.start (NewRequest ⟨"GET", "u"⟩ 2 1) 0)
      [.main, .main, .main, .main, .worker 0, .worker 0] = some s ∧
      ∃ s', step exampleMaxCap oddFailStub s (.worker 0) = some s' ∧
        s'.req.status = s.req.status + 1 :=
    ⟨_, rfl, _, rfl, rfl⟩
  obtain ⟨s, hex, hstep⟩ := hrun
  have hb := status_bounded_and_stepwise exampleMaxCap oddFailStub ⟨"GET", "u"⟩ 2 1 (by decide)
    (by decide) s (Reachable.of_exec _ _ _ hex)
  exact ⟨s, hex, ⟨hb.2.1, hb.2.2.1⟩, hstep⟩

/-- C6: in every state reachable during `MakeSync` on a fresh request (`count ≥ 0`,
`concurrency ≥ 1`): if the channel is closed then `MakeSync` has returned, every worker has
exited, no worker can take a further step, and all `count` responses are in the buffer; a
worker about to push (line 68) finds the channel open; the channel of a returned `MakeSync`
is closed; and the only panic there can be is that of `make` for a `count` too large to
allocate (never a send on a closed channel or a second `close`).  Where a channel of
capacity `count` can be made nothing panics and the run does return. -/
theorem channel_closed_only_after_workers (maxCap : Int) (t : Transport) (h : HttpRequest)
    (count concurrency : Int) (hcount : 0 ≤ count) (hmax : count ≤ maxInt64)
    (hconc : 1 ≤ concurrency) (s : State)
    (hreach : Reachable maxCap t (MakeSync.start (NewRequest h count concurrency) 0) s) :
    (∀ ch, s.res = some ch → ch.closed = true →
        s.main = .returned ∧ (∀ pc ∈ s.workers, pc = WorkerPc.exited) ∧
          (∀ i, step maxCap t s (.worker i) = none) ∧ (ch.buf.length : Int) = count) ∧
      (∀ (i : Nat) (newRes : Response), s.workers[i]? = some (.send newRes) →
        ∃ ch, s.res = some ch ∧ ch.closed = false) ∧
      (s.main = .returned → ∃ buf, s.res = some { cap := count, buf := buf, closed := true }) ∧
      (s.panicked = true → maxCap < count ∧ s.res = none ∧ s.workers = []) ∧
      (count ≤ maxCap →
        s.panicked = false ∧ ∃ sched s', exec maxCap t s sched = some s' ∧ s'.main = .returned) := by
  rcases reachable_cases h count concurrency hcount hmax hreach with ⟨hcap, hinv⟩ | ⟨hlt, hst⟩
  · have hr := NewRequest_ready h count concurrency hcount hmax hcap
    refine ⟨?_, ?_, ?_, ?_, ?_⟩
    · intro ch hres hclosed
      obtain ⟨_, hcl, _⟩ := hinv.chan_facts ch hres
      obtain ⟨hret, hlive⟩ := hcl hclosed
      obtain ⟨_, _, _, h4, hex, buf, hres'⟩ := hinv.at_return hconc hret
      refine ⟨hret, hex, ?_, ?_⟩
      · intro i
        simp [step, hinv.not_panicked, stepWorker_exited hex i]
      · simp only [State.bufLen, hres, NewRequest] at h4
        simpa [NewRequest] using h4
    · intro i newRes hpc
      obtain ⟨ch, hres, hcl, _, _⟩ := hinv.send_enabled (t := t) hr i newRes hpc
      exact ⟨ch, hres, hcl⟩
    · intro hret
      obtain ⟨_, _, _, _, _, buf, hres⟩ := hinv.at_return hconc hret
      exact ⟨buf, hres⟩
    · intro hp
      rw [hinv.not_panicked] at hp
      exact absurd hp (by simp)
    · intro _
      exact ⟨hinv.not_panicked, Inv.can_return t hr (measure s) s hinv (le_refl _)⟩
  · obtain ⟨_, hw, hres, hm, _, _⟩ := stuck_facts (t := t) (Or.inr hlt) hst
    refine ⟨?_, ?_, ?_, ?_, ?_⟩
    · intro ch hch
      rw [hres] at hch
      simp at hch
    · intro i newRes hpc
      rw [hw] at hpc
      simp at hpc
    · intro hret
      rw [hm] at hret
      exact absurd hret (by simp)
    · intro _
      exact ⟨hlt, hres, hw⟩
    · intro hcap
      omega

/-- A run with `count = 1`: stopped at line 68 the worker finds the channel open and
empty; run on to the return, the channel is closed after the push, with one response in
it and the worker gone. -/
theorem channel_closed_only_after_workers_witness :
    ∃ s₁ s₂, exec exampleMaxCap oddFailStub (MakeSync.start (NewRequest ⟨"GET", "u"⟩ 1 1) 0)
        [.main, .main, .main, .main, .worker 0, .worker 0, .worker 0, .worker 0, .worker 0] =
          some s₁ ∧
      s₁.workers[0]? = some (.send (oddFailStub 0 ⟨"GET", "u"⟩)) ∧
      (∃ ch, s₁.res = some ch ∧ ch.closed = false) ∧
      exec exampleMaxCap oddFailStub s₁
        [.worker 0, .worker 0, .worker 0, .worker 0, .worker 0, .main, .main, .main] = some s₂ ∧
      s₂.res = some { cap := 1, buf := [oddFailStub 0 ⟨"GET", "u"⟩], closed := true } ∧
      s₂.main = .returned ∧ (∀ pc ∈ s₂.workers, pc = WorkerPc.exited) ∧
      s₂.panicked = false := by
  have hrun : ∃ s₁ s₂, exec exampleMaxCap oddFailStub
      (MakeSync.start (NewRequest ⟨"GET", "u"⟩ 1 1) 0)
      [.main, .main, .main, .main, .worker 0, .worker 0, .worker 0, .worker 0, .worker 0] =
        some s₁ ∧
      s₁.workers[0]? = some (.send (oddFailStub 0 ⟨"GET", "u"⟩)) ∧
      exec exampleMaxCap oddFailStub s₁
        [.worker 0, .worker 0, .worker 0, .worker 0, .worker 0, .main, .main, .main] = some s₂ ∧
      s₂.res = some { cap := 1, buf := [oddFailStub 0 ⟨"GET", "u"⟩], closed := true } :=
    ⟨_, _, rfl, rfl, rfl, rfl⟩
  obtain ⟨s₁, s₂, hex₁, hpc, hex₂, hres⟩ := hrun
  have hr₁ := Reachable.of_exec _ _ _ hex₁
  have hr₂ := hr₁.trans (Reachable.of_exec _ _ _ hex₂)
  have hc₁ := channel_closed_only_after_workers exampleMaxCap oddFailStub ⟨"GET", "u"⟩ 1 1
    (by decide) (by decide) (by decide) s₁ hr₁
  have hc₂ := channel_closed_only_after_workers exampleMaxCap oddFailStub ⟨"GET", "u"⟩ 1 1
    (by decide) (by decide) (by decide) s₂ hr₂
  have hcl := hc₂.1 _ hres rfl
  exact ⟨s₁, s₂, hex₁, hpc, hc₁.2.1 0 _ hpc, hex₂, hres, hcl.1, hcl.2.1,
    (hc₂.2.2.2.2 (by decide)).1⟩

/-- C7: the channel is created with capacity exactly `count`, and in every state
reachable during `MakeSync` on a fresh request (`count ≥ 0`) in which some worker is
about to push (line 68), the channel is open and holds strictly fewer than `count`
responses, so that the push can be executed at once. -/
theorem send_never_blocks (maxCap : Int) (t : Transport) (h : HttpRequest)
    (count concurrency : Int) (hcount : 0 ≤ count) (hmax : count ≤ maxInt64) (s : State)
    (hreach : Reachable maxCap t (MakeSync.start (NewRequest h count concurrency) 0) s) :
    (∀ ch, s.res = some ch → ch.cap = count) ∧
      ∀ i newRes, s.workers[i]? = some (.send newRes) →
        ∃ ch, s.res = some ch ∧ ch.closed = false ∧ (ch.buf.length : Int) < count ∧
          step maxCap t s (.worker i) =
            some ({ s with res := some { ch with buf := ch.buf ++ [newRes] } }.setPc i .lock) := by
  rcases reachable_cases h count concurrency hcount hmax hreach with ⟨hcap, hinv⟩ | ⟨hlt, hst⟩
  · have hr := NewRequest_ready h count concurrency hcount hmax hcap
    refine ⟨fun ch hres => (hinv.chan_facts ch hres).1, ?_⟩
    intro i newRes hpc
    exact hinv.send_enabled hr i newRes hpc
  · obtain ⟨_, hw, hres, _, _, _⟩ := stuck_facts (t := t) (Or.inr hlt) hst
    refine ⟨?_, ?_⟩
    · intro ch hch
      rw [hres] at hch
      simp at hch
    · intro i newRes hpc
      rw [hw] at hpc
      simp at hpc

/-- A run with `count = 1` stopped at line 68: the buffer holds fewer than one response. -/
theorem send_never_blocks_witness :
    ∃ s, exec exampleMaxCap oddFailStub (MakeSync.start (NewRequest ⟨"GET", "u"⟩ 1 1) 0)
        [.main, .main, .main, .main, .worker 0, .worker 0, .worker 0, .worker 0, .worker 0] =
          some s ∧
      s.workers[0]? = some (.send (oddFailStub 0 ⟨"GET", "u"⟩)) ∧
      ∃ ch, s.res = some ch ∧ ch.cap = 1 ∧ (ch.buf.length : Int) < 1 := by
  have hrun : ∃ s, exec exampleMaxCap oddFailStub
      (MakeSync.start (NewRequest ⟨"GET", "u"⟩ 1 1) 0)
      [.main, .main, .main, .main, .worker 0, .worker 0, .worker 0, .worker 0, .worker 0] =
        some s ∧ s.workers[0]? = some (.send (oddFailStub 0 ⟨"GET", "u"⟩)) := ⟨_, rfl, rfl⟩
  obtain ⟨s, hex, hpc⟩ := hrun
  have hc := send_never_blocks exampleMaxCap oddFailStub ⟨"GET", "u"⟩ 1 1 (by decide)
    (by decide) s (Reachable.of_exec _ _ _ hex)
  obtain ⟨ch, hres, _, hlt, _⟩ := hc.2 0 _ hpc
  exact ⟨s, hex, hpc, ch, hres, hc.1 ch hres, hlt⟩

/-- C10: `MakeSync` never resets `status`.  After one `MakeSync` on a fresh request
(`count ≥ 0`, `concurrency ≥ 1`) has returned in state `s₁`, throughout a second
`MakeSync` on the same request the transport is never invoked, `status` stays equal to
`count` and the channel stays empty; when the second call has returned its channel is
closed and empty; and the second call does return. -/
theorem second_MakeSync_does_nothing (maxCap : Int) (t : Transport) (h : HttpRequest)
    (count concurrency : Int) (hcount : 0 ≤ count) (hmax : count ≤ maxInt64)
    (hconc : 1 ≤ concurrency) (s₁ : State)
    (hreach₁ : Reachable maxCap t (MakeSync.start (NewRequest h count concurrency) 0) s₁)
    (hret₁ : s₁.main = .returned) (s₂ : State)
    (hreach₂ : Reachable maxCap t (MakeSync.start s₁.req s₁.calls) s₂) :
    s₂.calls = s₁.calls ∧ s₂.req.status = count ∧ (∀ ch, s₂.res = some ch → ch.buf = []) ∧
      (s₂.main = .returned → s₂.res = some { cap := count, buf := [], closed := true }) ∧
      ∃ sched s', exec maxCap t s₂ sched = some s' ∧ s'.main = .returned := by
  rcases reachable_cases h count concurrency hcount hmax hreach₁ with ⟨hcap, hinv₁⟩ | ⟨hlt, hst⟩
  · obtain ⟨hst, hmx, _, _, _, _⟩ := hinv₁.at_return hconc hret₁
    have hcnt : s₁.req.count = count := hinv₁.count_eq
    have hcc : s₁.req.concurrency = concurrency := hinv₁.concurrency_eq
    have hst' : s₁.req.status = count := hst
    have hr₂ : s₁.req.Ready maxCap := ⟨hmx, by omega, by omega, by omega, by omega⟩
    have hinv₂ := Inv.of_reachable hr₂ hreach₂
    have h6 := hinv₂.status_le
    have h5 := hinv₂.status_ge
    have h10 := hinv₂.claimed_eq
    have h11 := hinv₂.calls_eq
    have hat := atSend_le_inFlight s₂.workers
    have hbuf : s₂.bufLen = 0 := by omega
    refine ⟨by omega, by omega, ?_, ?_, ?_⟩
    · intro ch hres
      simp only [State.bufLen, hres] at hbuf
      exact List.length_eq_zero.mp hbuf
    · intro hret
      obtain ⟨_, _, _, _, _, buf, hres⟩ := hinv₂.at_return (by omega) hret
      simp only [State.bufLen, hres] at hbuf
      rw [hres, List.length_eq_zero.mp hbuf, hcnt]
    · exact Inv.can_return t hr₂ (measure s₂) s₂ hinv₂ (le_refl _)
  · have hm := (stuck_facts (t := t) (Or.inr hlt) hst).2.2.2.1
    rw [hm] at hret₁
    exact absurd hret₁ (by simp)

/-- Two consecutive runs with `count = 1`: the second makes no call and returns a closed,
empty channel. -/
theorem second_MakeSync_does_nothing_witness :
    ∃ s₁ s₂, exec exampleMaxCap oddFailStub (MakeSync.start (NewRequest ⟨"GET", "u"⟩ 1 1) 0)
        [.main, .main, .main, .main, .worker 0, .worker 0, .worker 0, .worker 0, .worker 0,
         .worker 0, .worker 0, .worker 0, .worker 0, .worker 0, .main, .main, .main] = some s₁ ∧
      s₁.main = .returned ∧
      exec exampleMaxCap oddFailStub (MakeSync.start s₁.req s₁.calls)
        [.main, .main, .main, .main, .worker 0, .worker 0, .worker 0, .worker 0, .main, .main,
         .main] = some s₂ ∧
      s₂.main = .returned ∧ s₂.calls = s₁.calls ∧ s₂.req.status = 1 ∧
      s₂.res = some { cap := 1, buf := [], closed := true } := by
  have hrun : ∃ s₁ s₂, exec exampleMaxCap oddFailStub
      (MakeSync.start (NewRequest ⟨"GET", "u"⟩ 1 1) 0)
      [.main, .main, .main, .main, .worker 0, .worker 0, .worker 0, .worker 0, .worker 0,
       .worker 0, .worker 0, .worker 0, .worker 0, .worker 0, .main, .main, .main] = some s₁ ∧
      s₁.main = .returned ∧
      exec exampleMaxCap oddFailStub (MakeSync.start s₁.req s₁.calls)
        [.main, .main, .main, .main, .worker 0, .worker 0, .worker 0, .worker 0, .main, .main,
         .main] = some s₂ ∧ s₂.main = .returned := ⟨_, _, rfl, rfl, rfl, rfl⟩
  obtain ⟨s₁, s₂, hex₁, hret₁, hex₂, hret₂⟩ := hrun
  have hc := second_MakeSync_does_nothing exampleMaxCap oddFailStub ⟨"GET", "u"⟩ 1 1
    (by decide) (by decide) (by decide) s₁ (Reachable.of_exec _ _ _ hex₁) hret₁ s₂
    (Reachable.of_exec _ _ _ hex₂)
  exact ⟨s₁, s₂, hex₁, hret₁, hex₂, hret₂, hc.1, hc.2.1, hc.2.2.2.1 hret₂⟩

/-! ## Every transport result is pushed exactly once -/

theorem heldBy_snoc (l : List WorkerPc) (x : WorkerPc) : heldBy (l ++ [x]) = heldBy l + held x := by
  simp [heldBy]

theorem heldBy_set (x : WorkerPc) :
    ∀ (l : List WorkerPc) (i : Nat) (pc : WorkerPc), l[i]? = some pc →
      heldBy (l.set i x) + held pc = heldBy l + held x
  | [], i, pc, h => by simp at h
  | a :: l, 0, pc, h => by
      simp at h
      subst h
      simp only [heldBy, List.set_cons_zero, List.map_cons, List.sum_cons]
      abel
  | a :: l, i + 1, pc, h => by
      simp at h
      have ih := heldBy_set x l i pc h
      simp only [heldBy, List.set_cons_succ, List.map_cons, List.sum_cons] at ih ⊢
      rw [add_assoc, ih]
      abel

theorem heldBy_exited : ∀ {l : List WorkerPc}, (∀ pc ∈ l, pc = WorkerPc.exited) → heldBy l = 0
  | [], _ => rfl
  | a :: l, hex => by
      have ha := hex a (List.mem_cons_self a l)
      subst ha
      simp only [heldBy, List.map_cons, List.sum_cons, held, zero_add]
      exact heldBy_exited fun pc hpc => hex pc (List.mem_cons_of_mem _ hpc)

theorem results_succ (t : Transport) (h : HttpRequest) (c₀ n : Nat) :
    (results t h c₀ (n + 1) : Multiset Response) = (results t h c₀ n : Multiset Response) +
      {t (c₀ + n) h} := by
  simp only [results, List.range_succ, List.map_append, List.map_cons, List.map_nil]
  rw [← Multiset.coe_add]
  rfl

/-- The effect of one step on the buffer, the held responses and the invocation count:
nothing, a transport call (line 67), or a push (line 68). -/
theorem step_results {r₀ : Request} {c₀ : Nat} {maxCap : Int} {t : Transport} {s s' : State} {a : Actor}
    (h : Inv r₀ c₀ s) (hs : step maxCap t s a = some s') :
    (s'.buf = s.buf ∧ heldBy s'.workers = heldBy s.workers ∧ s'.calls = s.calls) ∨
      (s'.buf = s.buf ∧ heldBy s'.workers = heldBy s.workers + {t s.calls s.req.httpRequest} ∧
        s'.calls = s.calls + 1) ∨
      (∃ r, s'.buf = s.buf ++ [r] ∧ heldBy s'.workers + {r} = heldBy s.workers ∧
        s'.calls = s.calls) := by
  unfold step at hs
  split at hs
  · simp at hs
  cases a with
  | main =>
      left
      simp only [] at hs
      unfold stepMain at hs
      have hm := h.main_inv
      unfold MainInv at hm
      cases hmain : s.main <;> simp only [hmain] at hs hm
      · split at hs <;> simp only [Option.some.injEq] at hs <;> subst hs
        · exact ⟨rfl, rfl, rfl⟩
        · exact ⟨by simp [State.buf, hm.1], rfl, rfl⟩
      · split at hs <;> simp only [Option.some.injEq] at hs <;> subst hs <;>
          exact ⟨rfl, rfl, rfl⟩
      · split at hs <;> simp only [Option.some.injEq] at hs <;> subst hs <;>
          exact ⟨rfl, rfl, rfl⟩
      · simp only [Option.some.injEq] at hs
        subst hs
        exact ⟨rfl, by simp [heldBy_snoc, held], rfl⟩
      · split at hs
        · simp only [Option.some.injEq] at hs
          subst hs
          exact ⟨rfl, rfl, rfl⟩
        · simp at hs
      · obtain ⟨_, _, buf, hres⟩ := hm
        simp only [hres, Bool.false_eq_true, if_false, Option.some.injEq] at hs
        subst hs
        exact ⟨by simp [State.buf, hres], rfl, rfl⟩
      · simp at hs
  | worker i =>
      simp only [] at hs
      unfold stepWorker at hs
      cases hpc : s.workers[i]? with
      | none => simp [hpc] at hs
      | some pc =>
          simp only [hpc] at hs
          have e := fun x => heldBy_set x s.workers i pc hpc
          cases pc <;> simp only [stepWorkerAt] at hs
          · split at hs
            · simp at hs
            · simp only [Option.some.injEq] at hs
              subst hs
              have e := e .check
              simp only [held, add_zero] at e
              exact Or.inl ⟨rfl, e, rfl⟩
          · split at hs <;> simp only [Option.some.injEq] at hs <;> subst hs
            · have e := e .unlockBreak
              simp only [held, add_zero] at e
              exact Or.inl ⟨rfl, e, rfl⟩
            · have e := e .incr
              simp only [held, add_zero] at e
              exact Or.inl ⟨rfl, e, rfl⟩
          · split at hs <;> simp only [Option.some.injEq] at hs <;> subst hs
            · have e := e .wgDone
              simp only [held, add_zero] at e
              exact Or.inl ⟨rfl, e, rfl⟩
            · exact Or.inl ⟨rfl, rfl, rfl⟩
          · simp only [Option.some.injEq] at hs
            subst hs
            have e := e .unlockWork
            simp only [held, add_zero] at e
            exact Or.inl ⟨rfl, e, rfl⟩
          · split at hs <;> simp only [Option.some.injEq] at hs <;> subst hs
            · have e := e .doCall
              simp only [held, add_zero] at e
              exact Or.inl ⟨rfl, e, rfl⟩
            · exact Or.inl ⟨rfl, rfl, rfl⟩
          · simp only [Option.some.injEq] at hs
            subst hs
            have e := e (.send (t s.calls s.req.httpRequest))
            simp only [held, add_zero] at e
            exact Or.inr (Or.inl ⟨rfl, e, rfl⟩)
          · cases hres : s.res with
            | none => simp [hres] at hs
            | some ch =>
                simp only [hres] at hs
                split at hs
                · simp only [Option.some.injEq] at hs
                  subst hs
                  exact Or.inl ⟨by simp [State.buf, hres], rfl, rfl⟩
                · split at hs
                  · simp only [Option.some.injEq] at hs
                    subst hs
                    have e := e .lock
                    simp only [held, add_zero] at e
                    exact Or.inr (Or.inr ⟨_, by simp [State.buf, State.setPc, hres], e, rfl⟩)
                  · simp at hs
          · split at hs <;> simp only [Option.some.injEq] at hs <;> subst hs
            · exact Or.inl ⟨rfl, rfl, rfl⟩
            · have e := e .exited
              simp only [held, add_zero] at e
              exact Or.inl ⟨rfl, e, rfl⟩
          · simp at hs

theorem ResultsInv.at_start (t : Transport) (r₀ : Request) (c₀ : Nat) :
    ResultsInv t r₀ c₀ (MakeSync.start r₀ c₀) := by
  simp [ResultsInv, MakeSync.start, State.buf, heldBy, results]

theorem ResultsInv.preserved {r₀ : Request} {c₀ : Nat} {maxCap : Int} {t : Transport} {s s' : State} {a : Actor}
    (hi : Inv r₀ c₀ s) (h : ResultsInv t r₀ c₀ s) (hs : Benchmark.step maxCap t s a = some s') :
    ResultsInv t r₀ c₀ s' := by
  unfold ResultsInv at h ⊢
  have hcalls := hi.calls_eq
  have hreq := hi.httpRequest_eq
  rcases step_results hi hs with ⟨h1, h2, h3⟩ | ⟨h1, h2, h3⟩ | ⟨r, h1, h2, h3⟩
  · rw [h1, h2, h3]
    exact h
  · rw [h1, h2, h3]
    have hsub : s.calls + 1 - c₀ = (s.calls - c₀) + 1 := by omega
    have hadd : c₀ + (s.calls - c₀) = s.calls := by omega
    rw [hsub, results_succ, hadd, ← h, hreq, add_assoc]
  · rw [h1, h3, ← h, ← h2, ← Multiset.coe_add]
    simp only [Multiset.coe_add, Multiset.coe_singleton]
    abel

theorem ResultsInv.holds_of_reachable {r₀ : Request} {c₀ : Nat} {maxCap : Int} {t : Transport} {s : State}
    (hr : r₀.Ready maxCap) (h : Reachable maxCap t (MakeSync.start r₀ c₀) s) : ResultsInv t r₀ c₀ s := by
  induction h with
  | refl => exact ResultsInv.at_start t r₀ c₀
  | tail a hreach hs ih => exact ih.preserved (Inv.of_reachable hr hreach) hs

theorem oddFailStub_failures (h : HttpRequest) (n : Nat) :
    (results oddFailStub h 0 n).countP Response.isFailure = (n + 1) / 2 ∧
      (results oddFailStub h 0 n).countP (fun r => !r.isFailure) = n / 2 := by
  induction n with
  | zero => simp [results]
  | succ n ih =>
      obtain ⟨ih1, ih2⟩ := ih
      simp only [results, List.range_succ, List.map_append, List.map_cons, List.map_nil,
        List.countP_append, List.countP_cons, List.countP_nil] at ih1 ih2 ⊢
      rw [ih1, ih2]
      rcases Nat.mod_two_eq_zero_or_one n with hpar | hpar
      · have hodd : (0 + n + 1) % 2 = 1 := by omega
        simp only [oddFailStub, hodd, if_true, Response.isFailure, Response.Error,
          Option.isSome_some, Bool.not_true, if_false, Bool.false_eq_true]
        omega
      · have hev : ¬ (0 + n + 1) % 2 = 1 := by omega
        simp only [oddFailStub, hev, if_false, Response.isFailure, Response.Error,
          Option.isSome_none, Bool.not_false, if_true, Bool.false_eq_true]
        omega

/-- C8: for every `count ≥ 0` (an `int64`), `concurrency ≥ 1` and every transport, on a
fresh request: the transport is never invoked more than `count` times; a worker that holds
the result of its call at line 68, a response or an error alike, pushes it at once and
goes back to line 58; and when `MakeSync` has returned the transport has been invoked
exactly `count` times and the closed channel holds, in some order, exactly the results of
invocations number `0`, ..., `count - 1`, each once.  With the stub that fails on
odd-numbered calls the channel then holds `⌈count/2⌉` failures and `⌊count/2⌋` successes.
Where a channel of capacity `count` can be made (and every transport call returning), the
run does return, from every reachable state. -/
theorem every_result_pushed_once (maxCap : Int) (t : Transport) (h : HttpRequest)
    (count concurrency : Int) (hcount : 0 ≤ count) (hmax : count ≤ maxInt64)
    (hconc : 1 ≤ concurrency) :
    (∀ s, Reachable maxCap t (MakeSync.start (NewRequest h count concurrency) 0) s →
        (s.calls : Int) ≤ count ∧
        (∀ (i : Nat) (newRes : Response), s.workers[i]? = some (.send newRes) →
          ∃ ch, s.res = some ch ∧
            step maxCap t s (.worker i) =
              some ({ s with res := some { ch with buf := ch.buf ++ [newRes] } }.setPc i
                .lock)) ∧
        (s.main = .returned →
          (s.calls : Int) = count ∧
            ∃ buf, s.res = some { cap := count, buf := buf, closed := true } ∧
              buf.Perm (results t h 0 count.toNat) ∧ (buf.length : Int) = count ∧
              (t = oddFailStub →
                (buf.countP Response.isFailure : Int) = (count + 1) / 2 ∧
                  (buf.countP (fun r => !r.isFailure) : Int) = count / 2))) ∧
      (count ≤ maxCap →
        ∀ s, Reachable maxCap t (MakeSync.start (NewRequest h count concurrency) 0) s →
          ∃ sched s', exec maxCap t s sched = some s' ∧ s'.main = .returned) := by
  refine ⟨?_, ?_⟩
  · intro s hreach
    rcases reachable_cases h count concurrency hcount hmax hreach with ⟨hcap, hinv⟩ | ⟨hlt, hst⟩
    · have hr := NewRequest_ready h count concurrency hcount hmax hcap
      refine ⟨?_, ?_, ?_⟩
      · have h6 := hinv.status_le
        have h10 := hinv.claimed_eq
        have h11 := hinv.calls_eq
        have hat := atSend_le_inFlight s.workers
        simp only [NewRequest] at h6 h10 h11
        omega
      · intro i newRes hpc
        obtain ⟨ch, hres, _, _, hstep⟩ := hinv.send_enabled (t := t) hr i newRes hpc
        exact ⟨ch, hres, hstep⟩
      · intro hret
        have hres := ResultsInv.holds_of_reachable hr hreach
        obtain ⟨_, _, hcalls, hlen, hex, buf, hch⟩ := hinv.at_return hconc hret
        simp only [State.bufLen, hch, NewRequest, zero_add] at hcalls hlen
        have hheld : heldBy s.workers = 0 := heldBy_exited hex
        unfold ResultsInv at hres
        simp only [State.buf, hch, hheld, add_zero, NewRequest, Nat.sub_zero,
          Multiset.coe_eq_coe] at hres
        have hn : count.toNat = s.calls := by omega
        refine ⟨by omega, buf, hch, ?_, hlen, ?_⟩
        · rw [hn]
          exact hres
        · intro ht
          subst ht
          obtain ⟨h1, h2⟩ := oddFailStub_failures h s.calls
          rw [hres.countP_eq, hres.countP_eq, h1, h2]
          omega
    · obtain ⟨_, hw, _, hm, hc, _⟩ := stuck_facts (t := t) (Or.inr hlt) hst
      refine ⟨?_, ?_, ?_⟩
      · rw [hc]
        exact_mod_cast hcount
      · intro i newRes hpc
        rw [hw] at hpc
        simp at hpc
      · intro hret
        rw [hm] at hret
        exact absurd hret (by simp)
  · intro hcap s hreach
    have hr := NewRequest_ready h count concurrency hcount hmax hcap
    exact Inv.can_return t hr (measure s) s (Inv.of_reachable hr hreach) (le_refl _)

/-- A run with `count = 2`, `concurrency = 1` under the odd-failing stub: the first call
fails, the worker pushes the failure and goes on to make the second call, which succeeds;
the run returns after two calls with one failure and one success in the channel. -/
theorem every_result_pushed_once_witness :
    ∃ s₁ s₂, exec exampleMaxCap oddFailStub (MakeSync.start (NewRequest ⟨"GET", "u"⟩ 2 1) 0)
        [.main, .main, .main, .main, .worker 0, .worker 0, .worker 0, .worker 0, .worker 0] =
          some s₁ ∧
      s₁.workers[0]? = some (.send { httpResponse := none, err := some "failed" }) ∧
      exec exampleMaxCap oddFailStub s₁
        [.worker 0, .worker 0, .worker 0, .worker 0, .worker 0, .worker 0, .worker 0, .worker 0,
         .worker 0, .worker 0, .worker 0, .main, .main, .main] = some s₂ ∧
      s₂.main = .returned ∧ (s₂.calls : Int) = 2 ∧
      ∃ buf, s₂.res = some { cap := 2, buf := buf, closed := true } ∧
        (buf.countP Response.isFailure : Int) = 1 ∧
        (buf.countP (fun r => !r.isFailure) : Int) = 1 := by
  have hrun : ∃ s₁ s₂, exec exampleMaxCap oddFailStub
      (MakeSync.start (NewRequest ⟨"GET", "u"⟩ 2 1) 0)
      [.main, .main, .main, .main, .worker 0, .worker 0, .worker 0, .worker 0, .worker 0] =
        some s₁ ∧
      s₁.workers[0]? = some (.send { httpResponse := none, err := some "failed" }) ∧
      exec exampleMaxCap oddFailStub s₁
        [.worker 0, .worker 0, .worker 0, .worker 0, .worker 0, .worker 0, .worker 0, .worker 0,
         .worker 0, .worker 0, .worker 0, .main, .main, .main] = some s₂ ∧
      s₂.main = .returned := ⟨_, _, rfl, rfl, rfl, rfl⟩
  obtain ⟨s₁, s₂, hex₁, hpc, hex₂, hret⟩ := hrun
  have hr₂ := (Reachable.of_exec _ _ _ hex₁).trans (Reachable.of_exec _ _ _ hex₂)
  obtain ⟨_, _, hfin⟩ := (every_result_pushed_once exampleMaxCap oddFailStub ⟨"GET", "u"⟩ 2 1
    (by decide) (by decide) (by decide)).1 s₂ hr₂
  obtain ⟨hc, buf, hres, _, _, hstub⟩ := hfin hret
  obtain ⟨h1, h2⟩ := hstub rfl
  exact ⟨s₁, s₂, hex₁, hpc, hex₂, hret, hc, buf, hres, h1, h2⟩

/-! ## Rounding to `float32` -/

theorem roundTiesEven_intCast (n : ℤ) : roundTiesEven (n : ℚ) = n := by
  simp [roundTiesEven]

theorem roundTiesEven_mono {x y : ℚ} (h : x ≤ y) : roundTiesEven x ≤ roundTiesEven y := by
  have hf : ⌊x⌋ ≤ ⌊y⌋ := Int.floor_mono h
  rcases lt_or_eq_of_le hf with hlt | heq
  · unfold roundTiesEven
    split_ifs <;> omega
  · unfold roundTiesEven
    rw [← heq]
    split_ifs <;> first | omega | (exfalso; linarith)

theorem two_zpow_pos (k : ℤ) : (0 : ℚ) < (2 : ℚ) ^ k := zpow_pos (by norm_num) k

theorem ulpExp_of_bounds {q : ℚ} {k : ℤ} (hk : -126 ≤ k) (hlo : (2 : ℚ) ^ k ≤ |q|)
    (hhi : |q| < (2 : ℚ) ^ (k + 1)) : ulpExp q = k - 23 := by
  have hpos : 0 < |q| := lt_of_lt_of_le (two_zpow_pos k) hlo
  have h1 : k ≤ Int.log 2 |q| := (Int.zpow_le_iff_le_log (by norm_num) hpos).mp (by exact_mod_cast hlo)
  have h2 : Int.log 2 |q| < k + 1 :=
    (Int.lt_zpow_iff_log_lt (by norm_num) hpos).mp (by exact_mod_cast hhi)
  unfold ulpExp
  rw [max_eq_left (by omega)]
  omega

/-- A rational with at most 24 significant bits and exponent at least `-126` is a
`float32`: rounding leaves it unchanged. -/
theorem roundF32_exact {q : ℚ} (k m : ℤ) (hk : -126 ≤ k) (hlo : (2 : ℚ) ^ k ≤ |q|)
    (hhi : |q| < (2 : ℚ) ^ (k + 1)) (hm : q = m * (2 : ℚ) ^ (k - 23)) : roundF32 q = q := by
  unfold roundF32
  rw [ulpExp_of_bounds hk hlo hhi]
  have hne : (2 : ℚ) ^ (k - 23) ≠ 0 := ne_of_gt (two_zpow_pos _)
  have hdiv : q / (2 : ℚ) ^ (k - 23) = (m : ℚ) := by
    rw [hm]
    field_simp
  rw [hdiv, roundTiesEven_intCast, hm]
  ring

theorem roundF32_zero : roundF32 0 = 0 := by
  simp [roundF32, roundTiesEven]

theorem roundF32_one : roundF32 1 = 1 :=
  roundF32_exact 0 (2 ^ 23) (by norm_num) (by norm_num) (by norm_num) (by norm_num)

theorem roundF32_hundred : roundF32 100 = 100 :=
  roundF32_exact 6 (100 * 2 ^ 17) (by norm_num) (by norm_num [abs_of_pos])
    (by norm_num [abs_of_pos]) (by norm_num)

theorem roundF32_two_pow_63 : roundF32 (2 ^ 63) = 2 ^ 63 :=
  roundF32_exact 63 (2 ^ 23) (by norm_num) (by norm_num [abs_of_pos])
    (by norm_num [abs_of_pos]) (by norm_num)

theorem roundF32_nonneg {q : ℚ} (h : 0 ≤ q) : 0 ≤ roundF32 q := by
  unfold roundF32
  apply mul_nonneg (le_of_lt (two_zpow_pos _))
  have h0 : (0 : ℚ) ≤ q / (2 : ℚ) ^ ulpExp q := div_nonneg h (le_of_lt (two_zpow_pos _))
  have := roundTiesEven_mono h0
  have hz : roundTiesEven (0 : ℚ) = 0 := by simpa using roundTiesEven_intCast 0
  rw [hz] at this
  exact_mod_cast this

theorem ulpExp_mono {a b : ℚ} (ha : 0 < a) (hab : a ≤ b) : ulpExp a ≤ ulpExp b := by
  unfold ulpExp
  have hb : 0 < b := lt_of_lt_of_le ha hab
  rw [abs_of_pos ha, abs_of_pos hb]
  have := Int.log_mono_right (b := 2) ha hab
  have := max_le_max_right (-126) this
  omega

/-- A positive rational rounds to at most the next power of two. -/
theorem roundF32_le_pow {a : ℚ} (ha : 0 < a) : roundF32 a ≤ (2 : ℚ) ^ (ulpExp a + 24) := by
  have hlt : a < (2 : ℚ) ^ (Int.log 2 a + 1) := by
    exact_mod_cast Int.lt_zpow_succ_log_self (b := 2) (by norm_num) a
  have hexp : Int.log 2 a + 1 ≤ ulpExp a + 24 := by
    unfold ulpExp
    rw [abs_of_pos ha]
    have := le_max_left (Int.log 2 a) (-126)
    omega
  have hle : a ≤ (2 : ℚ) ^ (ulpExp a + 24) :=
    le_trans (le_of_lt hlt) (zpow_le_zpow_right₀ (by norm_num) hexp)
  have hu := two_zpow_pos (ulpExp a)
  have hdiv : a / (2 : ℚ) ^ ulpExp a ≤ ((2 ^ 24 : ℤ) : ℚ) := by
    rw [div_le_iff₀ hu]
    have : ((2 ^ 24 : ℤ) : ℚ) * (2 : ℚ) ^ ulpExp a = (2 : ℚ) ^ (ulpExp a + 24) := by
      rw [zpow_add₀ (by norm_num)]
      norm_num
      ring
    rw [this]
    exact hle
  have hr := roundTiesEven_mono hdiv
  rw [roundTiesEven_intCast] at hr
  unfold roundF32
  have hcast : ((roundTiesEven (a / (2 : ℚ) ^ ulpExp a) : ℤ) : ℚ) ≤ ((2 ^ 24 : ℤ) : ℚ) := by
    exact_mod_cast hr
  calc (2 : ℚ) ^ ulpExp a * (roundTiesEven (a / (2 : ℚ) ^ ulpExp a) : ℚ)
      ≤ (2 : ℚ) ^ ulpExp a * ((2 ^ 24 : ℤ) : ℚ) := mul_le_mul_of_nonneg_left hcast (le_of_lt hu)
    _ = (2 : ℚ) ^ (ulpExp a + 24) := by
      rw [zpow_add₀ (by norm_num)]
      norm_num

/-- A normal positive rational rounds to at least the power of two below it. -/
theorem pow_le_roundF32 {b : ℚ} (hb : 0 < b) (hnorm : -126 < ulpExp b + 23) :
    (2 : ℚ) ^ (ulpExp b + 23) ≤ roundF32 b := by
  have hexp : ulpExp b + 23 = Int.log 2 b := by
    unfold ulpExp at hnorm ⊢
    rw [abs_of_pos hb] at hnorm ⊢
    rcases le_total (Int.log 2 b) (-126) with h | h
    · rw [max_eq_right h] at hnorm
      omega
    · rw [max_eq_left h]
      omega
  have hle : (2 : ℚ) ^ (ulpExp b + 23) ≤ b := by
    rw [hexp]
    exact_mod_cast Int.zpow_log_le_self (b := 2) (by norm_num) hb
  have hu := two_zpow_pos (ulpExp b)
  have hdiv : ((2 ^ 23 : ℤ) : ℚ) ≤ b / (2 : ℚ) ^ ulpExp b := by
    rw [le_div_iff₀ hu]
    have : ((2 ^ 23 : ℤ) : ℚ) * (2 : ℚ) ^ ulpExp b = (2 : ℚ) ^ (ulpExp b + 23) := by
      rw [zpow_add₀ (by norm_num)]
      norm_num
      ring
    rw [this]
    exact hle
  have hr := roundTiesEven_mono hdiv
  rw [roundTiesEven_intCast] at hr
  unfold roundF32
  have hcast : ((2 ^ 23 : ℤ) : ℚ) ≤ ((roundTiesEven (b / (2 : ℚ) ^ ulpExp b) : ℤ) : ℚ) := by
    exact_mod_cast hr
  calc (2 : ℚ) ^ (ulpExp b + 23) = (2 : ℚ) ^ ulpExp b * ((2 ^ 23 : ℤ) : ℚ) := by
        rw [zpow_add₀ (by norm_num)]
        norm_num
    _ ≤ (2 : ℚ) ^ ulpExp b * (roundTiesEven (b / (2 : ℚ) ^ ulpExp b) : ℚ) :=
        mul_le_mul_of_nonneg_left hcast (le_of_lt hu)

/-- Rounding to `float32` is monotone on the non-negative rationals. -/
theorem roundF32_mono {a b : ℚ} (ha : 0 ≤ a) (hab : a ≤ b) : roundF32 a ≤ roundF32 b := by
  rcases eq_or_lt_of_le ha with h0 | hpos
  · rw [← h0, roundF32_zero]
    exact roundF32_nonneg (le_trans ha hab)
  · have hb : 0 < b := lt_of_lt_of_le hpos hab
    rcases eq_or_lt_of_le (ulpExp_mono hpos hab) with heq | hlt
    · unfold roundF32
      rw [← heq]
      have hu := two_zpow_pos (ulpExp a)
      have hdiv : a / (2 : ℚ) ^ ulpExp a ≤ b / (2 : ℚ) ^ ulpExp a :=
        div_le_div_of_nonneg_right hab (le_of_lt hu)
      have hr := roundTiesEven_mono hdiv
      exact mul_le_mul_of_nonneg_left (by exact_mod_cast hr) (le_of_lt hu)
    · have hnorm : -126 < ulpExp b + 23 := by
        have : -126 ≤ ulpExp a + 23 := by
          unfold ulpExp
          have := le_max_right (Int.log 2 |a|) (-126)
          omega
        omega
      calc roundF32 a ≤ (2 : ℚ) ^ (ulpExp a + 24) := roundF32_le_pow hpos
        _ ≤ (2 : ℚ) ^ (ulpExp b + 23) := zpow_le_zpow_right₀ (by norm_num) (by omega)
        _ ≤ roundF32 b := pow_le_roundF32 hb hnorm

/-! ## The value of `Status` -/

theorem F32.ofRat_of_bounds {q : ℚ} (h₀ : 0 ≤ roundF32 q) (h₁ : roundF32 q ≤ 2 ^ 63) :
    F32.ofRat q = .fin (roundF32 q) := by
  unfold F32.ofRat maxFloat32
  have h2 : ¬ ((2 : ℚ) ^ 128 - 2 ^ 104 < roundF32 q) := by
    have : (2 : ℚ) ^ 63 < 2 ^ 128 - 2 ^ 104 := by norm_num
    linarith
  have h3 : ¬ (roundF32 q < -((2 : ℚ) ^ 128 - 2 ^ 104)) := by
    have : -((2 : ℚ) ^ 128 - 2 ^ 104) < 0 := by norm_num
    linarith
  simp only [h2, h3, if_false]

/-- The conversion of a non-negative `int64` is finite and lies between `0` and `2^63`. -/
theorem roundF32_int64 {n : Int} (h₀ : 0 ≤ n) (h₁ : n ≤ maxInt64) :
    0 ≤ roundF32 n ∧ roundF32 n ≤ 2 ^ 63 ∧ F32.ofInt64 n = .fin (roundF32 n) := by
  have hq₀ : (0 : ℚ) ≤ (n : ℚ) := by exact_mod_cast h₀
  have hq₁ : (n : ℚ) ≤ 2 ^ 63 := by
    have : n ≤ 2 ^ 63 := by
      unfold maxInt64 at h₁
      omega
    exact_mod_cast this
  have hlo := roundF32_nonneg hq₀
  have hhi : roundF32 n ≤ 2 ^ 63 := by
    have := roundF32_mono hq₀ hq₁
    rwa [roundF32_two_pow_63] at this
  exact ⟨hlo, hhi, F32.ofRat_of_bounds hlo hhi⟩

theorem one_le_roundF32 {n : Int} (h : 1 ≤ n) : 1 ≤ roundF32 n := by
  have hq : (1 : ℚ) ≤ (n : ℚ) := by exact_mod_cast h
  have := roundF32_mono (by norm_num) hq
  rwa [roundF32_one] at this

/-- For `0 ≤ status ≤ count` and `1 ≤ count` line 85 yields the finite value `percent`. -/
theorem statusValue_eq (req : Request) (h₀ : 0 ≤ req.status) (h₁ : req.status ≤ req.count)
    (hc : 1 ≤ req.count) (hmax : req.count ≤ maxInt64) :
    statusValue req = .fin (percent req.status req.count) ∧
      0 ≤ percent req.status req.count ∧ percent req.status req.count ≤ 100 := by
  obtain ⟨hs0, hs1, hs⟩ := roundF32_int64 h₀ (le_trans h₁ hmax)
  obtain ⟨hc0, hc1, hcc⟩ := roundF32_int64 (le_trans (by norm_num) hc) hmax
  have hy := one_le_roundF32 hc
  have hypos : (0 : ℚ) < roundF32 req.count := by linarith
  have hxy : roundF32 req.status ≤ roundF32 req.count :=
    roundF32_mono (by exact_mod_cast h₀) (by exact_mod_cast h₁)
  have hq0 : 0 ≤ roundF32 req.status / roundF32 req.count := div_nonneg hs0 hc0
  have hq1 : roundF32 req.status / roundF32 req.count ≤ 1 := (div_le_one hypos).mpr hxy
  have hr0 := roundF32_nonneg hq0
  have hr1 : roundF32 (roundF32 req.status / roundF32 req.count) ≤ 1 := by
    have := roundF32_mono hq0 hq1
    rwa [roundF32_one] at this
  have hp0 : 0 ≤ roundF32 (roundF32 req.status / roundF32 req.count) * 100 := by linarith
  have hp1 : roundF32 (roundF32 req.status / roundF32 req.count) * 100 ≤ 100 := by linarith
  have hv0 := roundF32_nonneg hp0
  have hv1 : roundF32 (roundF32 (roundF32 req.status / roundF32 req.count) * 100) ≤ 100 := by
    have := roundF32_mono hp0 hp1
    rwa [roundF32_hundred] at this
  refine ⟨?_, hv0, hv1⟩
  unfold statusValue percent
  rw [hs, hcc]
  have hne : ¬ roundF32 req.count = 0 := ne_of_gt hypos
  simp only [F32.div, hne, if_false]
  rw [F32.ofRat_of_bounds hr0 (le_trans hr1 (by norm_num))]
  simp only [F32.mul]
  rw [F32.ofRat_of_bounds hv0 (le_trans hv1 (by norm_num))]

theorem percent_zero (count : Int) : percent 0 count = 0 := by
  simp [percent, roundF32_zero]

theorem percent_self {count : Int} (hc : 1 ≤ count) : percent count count = 100 := by
  have hy := one_le_roundF32 hc
  have hne : roundF32 count ≠ 0 := by
    intro h
    rw [h] at hy
    norm_num at hy
  unfold percent
  rw [div_self hne, roundF32_one, one_mul, roundF32_hundred]

theorem percent_mono {s₁ s₂ count : Int} (h₀ : 0 ≤ s₁) (h : s₁ ≤ s₂) (hc : 1 ≤ count) :
    percent s₁ count ≤ percent s₂ count := by
  have hy := one_le_roundF32 hc
  have hypos : (0 : ℚ) < roundF32 count := by linarith
  have hx0 : 0 ≤ roundF32 s₁ := roundF32_nonneg (by exact_mod_cast h₀)
  have hx : roundF32 s₁ ≤ roundF32 s₂ :=
    roundF32_mono (by exact_mod_cast h₀) (by exact_mod_cast h)
  have hq0 : 0 ≤ roundF32 s₁ / roundF32 count := div_nonneg hx0 (le_of_lt hypos)
  have hq : roundF32 s₁ / roundF32 count ≤ roundF32 s₂ / roundF32 count :=
    div_le_div_of_nonneg_right hx (le_of_lt hypos)
  have hr0 := roundF32_nonneg hq0
  have hr := roundF32_mono hq0 hq
  unfold percent
  exact roundF32_mono (by linarith) (by linarith)

theorem roundTiesEven_of_lt_half {x : ℚ} {m : ℤ} (h₁ : (m : ℚ) ≤ x) (h₂ : x < m + 1 / 2) :
    roundTiesEven x = m := by
  have hf : ⌊x⌋ = m := Int.floor_eq_iff.mpr ⟨h₁, by linarith⟩
  unfold roundTiesEven
  rw [hf]
  have : x - (m : ℚ) < 1 / 2 := by linarith
  simp only [this, if_true]

/-- Rounding a rational that lies less than half a unit above a `float32`. -/
theorem roundF32_of_lt_half {q : ℚ} (k m : ℤ) (hk : -126 ≤ k) (hlo : (2 : ℚ) ^ k ≤ |q|)
    (hhi : |q| < (2 : ℚ) ^ (k + 1)) (h₁ : (m : ℚ) ≤ q / (2 : ℚ) ^ (k - 23))
    (h₂ : q / (2 : ℚ) ^ (k - 23) < m + 1 / 2) : roundF32 q = (2 : ℚ) ^ (k - 23) * m := by
  unfold roundF32
  rw [ulpExp_of_bounds hk hlo hhi, roundTiesEven_of_lt_half h₁ h₂]

/-- Integers up to `2^24` are `float32` values. -/
theorem roundF32_small_int {n : Int} (h₀ : 0 ≤ n) (h₁ : n ≤ 2 ^ 24) : roundF32 n = n := by
  rcases eq_or_lt_of_le h₀ with h0 | hpos
  · rw [← h0]
    simpa using roundF32_zero
  rcases eq_or_lt_of_le h₁ with htop | hlt
  · rw [htop]
    have := roundF32_exact (q := (2 : ℚ) ^ 24) 24 (2 ^ 23) (by norm_num)
      (by norm_num [abs_of_pos]) (by norm_num [abs_of_pos]) (by norm_num)
    simpa using this
  obtain ⟨N, rfl⟩ := Int.eq_ofNat_of_zero_le h₀
  have hN1 : 1 ≤ N := by omega
  have hN2 : N < 2 ^ 24 := by exact_mod_cast hlt
  have hk24 : Nat.log 2 N < 24 := Nat.log_lt_of_lt_pow (Nat.one_le_iff_ne_zero.mp hN1) hN2
  have hlo : 2 ^ Nat.log 2 N ≤ N := Nat.pow_log_le_self 2 (Nat.one_le_iff_ne_zero.mp hN1)
  have hhi : N < 2 ^ (Nat.log 2 N + 1) := Nat.lt_pow_succ_log_self (by norm_num) N
  have hq : ((N : ℤ) : ℚ) = (N : ℚ) := Int.cast_natCast N
  rw [hq]
  have habs : |(N : ℚ)| = N := abs_of_nonneg (by positivity)
  refine roundF32_exact (Nat.log 2 N : ℤ) ((N * 2 ^ (23 - Nat.log 2 N) : ℕ) : ℤ)
    (le_trans (by norm_num) (Int.natCast_nonneg _)) ?_ ?_ ?_
  · rw [habs, zpow_natCast]
    exact_mod_cast hlo
  · rw [habs]
    have : ((Nat.log 2 N : ℤ) + 1) = ((Nat.log 2 N + 1 : ℕ) : ℤ) := (Nat.cast_succ _).symm
    rw [this, zpow_natCast]
    exact_mod_cast hhi
  · have h23 : (2 : ℚ) ^ ((Nat.log 2 N : ℤ) - 23) = (2 : ℚ) ^ (Nat.log 2 N) / 2 ^ 23 := by
      rw [zpow_sub₀ (by norm_num), zpow_natCast]
      norm_num
    rw [h23]
    have hpow : (2 : ℚ) ^ (23 - Nat.log 2 N) * 2 ^ (Nat.log 2 N) = 2 ^ 23 := by
      rw [← pow_add]
      congr 1
      omega
    push_cast
    field_simp
    rw [mul_assoc, hpow]

theorem roundF32_below_one : roundF32 (1 - (2 : ℚ) ^ (-24 : ℤ)) = 1 - (2 : ℚ) ^ (-24 : ℤ) :=
  roundF32_exact (-1) (2 ^ 24 - 1) (by norm_num) (by norm_num [abs_of_pos])
    (by norm_num [abs_of_pos]) (by norm_num)

theorem roundF32_below_hundred :
    roundF32 ((1 - (2 : ℚ) ^ (-24 : ℤ)) * 100) = 13107199 / 131072 := by
  have := roundF32_of_lt_half (q := (1 - (2 : ℚ) ^ (-24 : ℤ)) * 100) 6 13107199 (by norm_num)
    (by norm_num [abs_of_pos]) (by norm_num [abs_of_pos]) (by norm_num) (by norm_num)
  rw [this]
  norm_num

/-- While a unit of work is unclaimed and `count ≤ 2^24`, line 85 stays below `100`. -/
theorem percent_lt_hundred {status count : Int} (h₀ : 0 ≤ status) (h₁ : status < count)
    (hc : count ≤ 2 ^ 24) : percent status count < 100 := by
  have hcpos : (0 : ℚ) < (count : ℚ) := by exact_mod_cast (by omega : 0 < count)
  have hs := roundF32_small_int h₀ (by omega : status ≤ 2 ^ 24)
  have hcc := roundF32_small_int (by omega : 0 ≤ count) hc
  have hq0 : (0 : ℚ) ≤ (status : ℚ) / count := div_nonneg (by exact_mod_cast h₀) (le_of_lt hcpos)
  have hq : (status : ℚ) / count ≤ 1 - (2 : ℚ) ^ (-24 : ℤ) := by
    rw [div_le_iff₀ hcpos]
    have h1 : (status : ℚ) ≤ count - 1 := by exact_mod_cast (by omega : status ≤ count - 1)
    have h2 : (count : ℚ) ≤ 2 ^ 24 := by exact_mod_cast hc
    have h3 : (2 : ℚ) ^ (-24 : ℤ) * count ≤ 1 := by
      have : (2 : ℚ) ^ (-24 : ℤ) = 1 / 2 ^ 24 := by norm_num
      rw [this]
      rw [div_mul_eq_mul_div, one_mul, div_le_one (by norm_num)]
      exact h2
    linarith
  have hr := roundF32_mono hq0 hq
  rw [roundF32_below_one] at hr
  have hr0 := roundF32_nonneg hq0
  have hp := roundF32_mono (a := roundF32 ((status : ℚ) / count) * 100)
    (b := (1 - (2 : ℚ) ^ (-24 : ℤ)) * 100) (by linarith) (by linarith)
  rw [roundF32_below_hundred] at hp
  unfold percent
  rw [hs, hcc]
  have : (13107199 : ℚ) / 131072 < 100 := by norm_num
  linarith

/-- Above `2^24` the conversion of `count` rounds, and line 85 can reach `100` with a unit
of work still unclaimed. -/
theorem percent_rounds_up_above_two_pow_24 : percent 16777216 16777217 = 100 := by
  have hc : roundF32 ((16777217 : ℤ) : ℚ) = 16777216 := by
    have hte : roundTiesEven ((16777217 : ℚ) / (2 : ℚ) ^ (1 : ℤ)) = 8388608 := by
      have hx : (16777217 : ℚ) / (2 : ℚ) ^ (1 : ℤ) = 8388608 + 1 / 2 := by norm_num
      have hf : ⌊(8388608 : ℚ) + 1 / 2⌋ = 8388608 :=
        Int.floor_eq_iff.mpr ⟨by norm_num, by norm_num⟩
      rw [hx]
      unfold roundTiesEven
      rw [hf]
      norm_num
    unfold roundF32
    rw [ulpExp_of_bounds (k := 24) (by norm_num) (by norm_num [abs_of_pos])
      (by norm_num [abs_of_pos])]
    have hk : (24 : ℤ) - 23 = 1 := by norm_num
    rw [hk, Int.cast_ofNat, hte]
    norm_num
  have hs : roundF32 ((16777216 : ℤ) : ℚ) = 16777216 := by
    have := roundF32_small_int (n := 16777216) (by norm_num) (by norm_num)
    simpa using this
  unfold percent
  rw [hc, hs]
  norm_num
  rw [roundF32_one]
  norm_num
  exact roundF32_hundred

/-! ## Claims about `NewRequest` and `Status` -/

theorem F32.ofInt64_zero : F32.ofInt64 0 = .fin 0 := by
  have h1 : (0 : ℚ) ≤ roundF32 0 := by rw [roundF32_zero]
  have h2 : roundF32 0 ≤ 2 ^ 63 := by
    rw [roundF32_zero]
    norm_num
  have := F32.ofRat_of_bounds h1 h2
  rw [roundF32_zero] at this
  unfold F32.ofInt64
  rw [Int.cast_zero]
  exact this

/-- C3 (what the code does): on a request with `count = 0`, before `MakeSync` is invoked,
line 85 divides `float32(0)` by `float32(0)`, and `Status` returns NaN, not `100`. -/
theorem Status_count_zero_is_nan (h : HttpRequest) (concurrency : Int) :
    F32.div (F32.ofInt64 (NewRequest h 0 concurrency).status)
        (F32.ofInt64 (NewRequest h 0 concurrency).count) = F32.nan ∧
      Status (NewRequest h 0 concurrency) = some F32.nan := by
  have hd : F32.div (F32.ofInt64 0) (F32.ofInt64 0) = F32.nan := by
    rw [F32.ofInt64_zero]
    simp only [F32.div, if_true]
  refine ⟨hd, ?_⟩
  unfold Status statusValue
  simp only [NewRequest, Bool.false_eq_true, if_false]
  rw [hd]
  rfl

/-- C4 (counterexample): `NewRequest` returns a request for `concurrency = 0`, on which
`MakeSync` runs to its return; and it returns a request for `count = -1`, which is turned
down only by the panic of `make` inside `MakeSync`. -/
theorem NewRequest_accepts_invalid_arguments :
    (NewRequest ⟨"GET", "u"⟩ 2 0).concurrency = 0 ∧
      (∃ s, exec exampleMaxCap oddFailStub (MakeSync.start (NewRequest ⟨"GET", "u"⟩ 2 0) 0)
          [.main, .main, .main, .main] = some s ∧ s.main = .returned) ∧
      (NewRequest ⟨"GET", "u"⟩ (-1) 1).count = -1 ∧
      (∃ s, exec exampleMaxCap oddFailStub (MakeSync.start (NewRequest ⟨"GET", "u"⟩ (-1) 1) 0)
          [.main] = some s ∧ s.panicked = true) :=
  ⟨rfl, ⟨_, rfl, rfl⟩, rfl, ⟨_, rfl, rfl⟩⟩

/-- C4 (amended): `NewRequest` performs no validation: for all arguments, `concurrency < 1`
and `count < 0` included, it returns a request that stores them unchanged, with
`status = 0` and a free mutex, and on which `MakeSync` can be invoked (its first step is
enabled).  A negative `count` is turned down only there: the first step of `MakeSync`,
the `make`, panics. -/
theorem NewRequest_performs_no_validation (maxCap : Int) (t : Transport) (h : HttpRequest)
    (count concurrency : Int) :
    NewRequest h count concurrency =
        { count := count, concurrency := concurrency, httpRequest := h, status := 0,
          mutex := false } ∧
      (step maxCap t (MakeSync.start (NewRequest h count concurrency) 0) .main).isSome = true ∧
      (count < 0 →
        step maxCap t (MakeSync.start (NewRequest h count concurrency) 0) .main =
          some { MakeSync.start (NewRequest h count concurrency) 0 with panicked := true }) := by
  refine ⟨rfl, ?_, ?_⟩
  · simp only [step, MakeSync.start, Bool.false_eq_true, if_false, stepMain, NewRequest]
    split <;> rfl
  · intro hcount
    simp only [step, MakeSync.start, Bool.false_eq_true, if_false, stepMain, NewRequest, hcount,
      true_or, if_true]

/-- The requests for `concurrency = 0` and for `count = -1` are returned as they are asked
for; on the second the first step of `MakeSync` panics. -/
theorem NewRequest_performs_no_validation_witness :
    (NewRequest ⟨"GET", "u"⟩ 2 0).concurrency = 0 ∧ (NewRequest ⟨"GET", "u"⟩ (-1) 1).count = -1 ∧
      step exampleMaxCap oddFailStub (MakeSync.start (NewRequest ⟨"GET", "u"⟩ (-1) 1) 0) .main =
        some { MakeSync.start (NewRequest ⟨"GET", "u"⟩ (-1) 1) 0 with panicked := true } := by
  have h₁ := (NewRequest_performs_no_validation exampleMaxCap oddFailStub ⟨"GET", "u"⟩ 2 0).1
  have h₂ := NewRequest_performs_no_validation exampleMaxCap oddFailStub ⟨"GET", "u"⟩ (-1) 1
  exact ⟨by rw [h₁], by rw [h₂.1], h₂.2.2 (by decide)⟩

/-- C5 (counterexample): after a completed run with `count = 1`, `Status` returns `100`,
which does not lie in `[0, 1]`. -/
theorem Status_exceeds_one :
    ∃ s, exec exampleMaxCap oddFailStub (MakeSync.start (NewRequest ⟨"GET", "u"⟩ 1 1) 0)
        [.main, .main, .main, .main, .worker 0, .worker 0, .worker 0, .worker 0, .worker 0,
         .worker 0, .worker 0, .worker 0, .worker 0, .worker 0, .main, .main, .main] = some s ∧
      s.main = .returned ∧ Status s.req = some (.fin 100) ∧ ¬ ((100 : ℚ) ≤ 1) := by
  have hrun : ∃ s, exec exampleMaxCap oddFailStub
      (MakeSync.start (NewRequest ⟨"GET", "u"⟩ 1 1) 0)
      [.main, .main, .main, .main, .worker 0, .worker 0, .worker 0, .worker 0, .worker 0,
       .worker 0, .worker 0, .worker 0, .worker 0, .worker 0, .main, .main, .main] = some s ∧
      s.main = .returned ∧ s.req.mutex = false ∧ s.req.status = 1 ∧ s.req.count = 1 :=
    ⟨_, rfl, rfl, rfl, rfl, rfl⟩
  obtain ⟨s, hex, hret, hmx, hst, hcnt⟩ := hrun
  refine ⟨s, hex, hret, ?_, by norm_num⟩
  have hv := (statusValue_eq s.req (by omega) (by omega) (by omega)
    (by rw [hcnt]; decide)).1
  rw [hst, hcnt, percent_self (le_refl 1)] at hv
  simp only [Status, hmx, Bool.false_eq_true, if_false, hv]

/-- C5 (amended): for every `count ≥ 1` (an `int64`), in every state reachable during or
after `MakeSync` on a fresh request, line 85 yields a finite percentage between `0` and
`100`, which is what `Status` returns when it returns; it returns `0` on the fresh request
before the run starts and, the request having `concurrency ≥ 1`, `100` after the run has
completed. -/
theorem Status_is_percentage (maxCap : Int) (t : Transport) (h : HttpRequest)
    (count concurrency : Int) (hcount : 1 ≤ count) (hmax : count ≤ maxInt64) (s : State)
    (hreach : Reachable maxCap t (MakeSync.start (NewRequest h count concurrency) 0) s) :
    (∃ q, statusValue s.req = .fin q ∧ 0 ≤ q ∧ q ≤ 100 ∧
        ∀ v, Status s.req = some v → v = .fin q) ∧
      Status (NewRequest h count concurrency) = some (.fin 0) ∧
      (1 ≤ concurrency → s.main = .returned → Status s.req = some (.fin 100)) := by
  have hfresh : Status (NewRequest h count concurrency) = some (.fin 0) := by
    have hf := (statusValue_eq (NewRequest h count concurrency) (le_refl _)
      (by simp only [NewRequest]; omega) hcount hmax).1
    simp only [NewRequest] at hf
    rw [percent_zero] at hf
    simp only [Status, NewRequest, Bool.false_eq_true, if_false, statusValue]
    simp only [statusValue] at hf
    rw [hf]
  have hbounds : 0 ≤ s.req.status ∧ s.req.status ≤ s.req.count ∧ s.req.count = count := by
    rcases reachable_cases h count concurrency (by omega) hmax hreach with
      ⟨_, hinv⟩ | ⟨hlt, hst⟩
    · have h5 := hinv.status_ge
      have h6 := hinv.status_le
      have h2 := hinv.count_eq
      simp only [NewRequest] at h5 h6 h2
      exact ⟨h5, by omega, h2⟩
    · have hreq := (stuck_facts (t := t) (Or.inr hlt) hst).1
      rw [hreq]
      show (0 : Int) ≤ 0 ∧ (0 : Int) ≤ count ∧ count = count
      exact ⟨le_refl _, by omega, rfl⟩
  obtain ⟨h5, h6, h2⟩ := hbounds
  obtain ⟨hv, hv0, hv1⟩ := statusValue_eq s.req h5 h6 (by omega) (by omega)
  refine ⟨⟨_, hv, hv0, hv1, ?_⟩, hfresh, ?_⟩
  · intro v hstat
    unfold Status at hstat
    split at hstat
    · simp at hstat
    · simp only [Option.some.injEq] at hstat
      rw [← hstat, hv]
  · intro hconc hret
    rcases reachable_cases h count concurrency (by omega) hmax hreach with
      ⟨_, hinv⟩ | ⟨hlt, hst⟩
    · obtain ⟨hst, hmx, _⟩ := hinv.at_return hconc hret
      simp only [NewRequest] at hst
      rw [hst, h2, percent_self hcount] at hv
      simp only [Status, hmx, Bool.false_eq_true, if_false, hv]
    · have hm := (stuck_facts (t := t) (Or.inr hlt) hst).2.2.2.1
      rw [hm] at hret
      exact absurd hret (by simp)

/-- A run with `count = 1`: `Status` is `0` before the run and `100` after it. -/
theorem Status_is_percentage_witness :
    ∃ s, exec exampleMaxCap oddFailStub (MakeSync.start (NewRequest ⟨"GET", "u"⟩ 1 1) 0)
        [.main, .main, .main, .main, .worker 0, .worker 0, .worker 0, .worker 0, .worker 0,
         .worker 0, .worker 0, .worker 0, .worker 0, .worker 0, .main, .main, .main] = some s ∧
      s.main = .returned ∧ Status (NewRequest ⟨"GET", "u"⟩ 1 1) = some (.fin 0) ∧
      Status s.req = some (.fin 100) := by
  have hrun : ∃ s, exec exampleMaxCap oddFailStub
      (MakeSync.start (NewRequest ⟨"GET", "u"⟩ 1 1) 0)
      [.main, .main, .main, .main, .worker 0, .worker 0, .worker 0, .worker 0, .worker 0,
       .worker 0, .worker 0, .worker 0, .worker 0, .worker 0, .main, .main, .main] = some s ∧
      s.main = .returned := ⟨_, rfl, rfl⟩
  obtain ⟨s, hex, hret⟩ := hrun
  have hc := Status_is_percentage exampleMaxCap oddFailStub ⟨"GET", "u"⟩ 1 1 (by decide)
    (by decide) s (Reachable.of_exec _ _ _ hex)
  exact ⟨s, hex, hret, hc.2.1, hc.2.2 (by decide) hret⟩

/-- C9 (counterexample): with `count = 1`, `concurrency = 1`, once the only worker has
claimed the unit of work and released the mutex (it stands at line 67), `Status` returns
`100` although nothing has been pushed, the worker has not exited and `MakeSync` has not
returned. -/
theorem Status_complete_before_run_complete :
    ∃ s, exec exampleMaxCap oddFailStub (MakeSync.start (NewRequest ⟨"GET", "u"⟩ 1 1) 0)
        [.main, .main, .main, .main, .worker 0, .worker 0, .worker 0, .worker 0] = some s ∧
      Status s.req = some (.fin 100) ∧ s.main ≠ .returned ∧ s.buf = [] ∧
      s.workers = [.doCall] := by
  have hrun : ∃ s, exec exampleMaxCap oddFailStub
      (MakeSync.start (NewRequest ⟨"GET", "u"⟩ 1 1) 0)
      [.main, .main, .main, .main, .worker 0, .worker 0, .worker 0, .worker 0] = some s ∧
      s.main = .loopTest 1 ∧ s.buf = [] ∧ s.workers = [.doCall] ∧ s.req.mutex = false ∧
      s.req.status = 1 ∧ s.req.count = 1 := ⟨_, rfl, rfl, rfl, rfl, rfl, rfl, rfl⟩
  obtain ⟨s, hex, hmain, hbuf, hw, hmx, hst, hcnt⟩ := hrun
  refine ⟨s, hex, ?_, by simp [hmain], hbuf, hw⟩
  have hv := (statusValue_eq s.req (by omega) (by omega) (by omega)
    (by rw [hcnt]; decide)).1
  rw [hst, hcnt, percent_self (le_refl 1)] at hv
  simp only [Status, hmx, Bool.false_eq_true, if_false, hv]

/-- C9 (amended): for every `count ≥ 1` (an `int64`) and `concurrency ≥ 1`, along every
execution of `MakeSync` on a fresh request the values of `Status` are finite and
non-decreasing; `Status` yields `100` in every state in which all `count` units have been
claimed (`status = count`), and every state in which the run is complete is such a state;
and for `count ≤ 2^24` it yields `100` in no other state: exactly when all `count` units
have been claimed. -/
theorem Status_monotone (maxCap : Int) (t : Transport) (h : HttpRequest)
    (count concurrency : Int) (hcount : 1 ≤ count) (hmax : count ≤ maxInt64)
    (hconc : 1 ≤ concurrency) (s s' : State)
    (hreach : Reachable maxCap t (MakeSync.start (NewRequest h count concurrency) 0) s)
    (hnext : Reachable maxCap t s s') :
    (∃ q q', statusValue s.req = .fin q ∧ statusValue s'.req = .fin q' ∧ q ≤ q' ∧
        (∀ v v', Status s.req = some v → Status s'.req = some v' → v = .fin q ∧ v' = .fin q')) ∧
      (s.req.status = count → statusValue s.req = .fin 100) ∧
      (s.main = .returned → s.req.status = count ∧ Status s.req = some (.fin 100)) ∧
      (count ≤ 2 ^ 24 → (statusValue s.req = .fin 100 ↔ s.req.status = count)) := by
  have hreach' := hreach.trans hnext
  have hfacts : 0 ≤ s.req.status ∧ s.req.status ≤ s'.req.status ∧ s'.req.status ≤ count ∧
      s.req.count = count ∧ s'.req.count = count ∧
      (s.main = .returned → s.req.status = count ∧ s.req.mutex = false) := by
    rcases reachable_cases h count concurrency (by omega) hmax hreach with
      ⟨hcap, hinv⟩ | ⟨hlt, hst⟩
    · have hr := NewRequest_ready h count concurrency (by omega) hmax hcap
      have hinv' := Inv.of_reachable hr hreach'
      have h5 := hinv.status_ge
      have h2 := hinv.count_eq
      have h6' := hinv'.status_le
      have h2' := hinv'.count_eq
      simp only [NewRequest] at h5 h2 h6' h2'
      refine ⟨h5, (status_mono_of_reachable hr hreach hnext).2, h6', h2, h2', ?_⟩
      intro hret
      obtain ⟨hst, hmx, _⟩ := hinv.at_return hconc hret
      exact ⟨hst, hmx⟩
    · have hst' := reachable_of_make_fails (Or.inr hlt) hreach'
      obtain ⟨hreq, _, _, hm, _, _⟩ := stuck_facts (t := t) (Or.inr hlt) hst
      have hreq' := (stuck_facts (t := t) (Or.inr hlt) hst').1
      rw [hreq, hreq']
      refine ⟨le_refl _, le_refl _, by simp only [NewRequest]; omega, rfl, rfl, ?_⟩
      intro hret
      rw [hm] at hret
      exact absurd hret (by simp)
  obtain ⟨h5, hle, h6', h2, h2', hretf⟩ := hfacts
  obtain ⟨hv, _, _⟩ := statusValue_eq s.req h5 (by omega) (by omega) (by omega)
  obtain ⟨hv', _, _⟩ := statusValue_eq s'.req (by omega) (by omega) (by omega) (by omega)
  have hfull : s.req.status = count → statusValue s.req = .fin 100 := by
    intro hst
    rw [hv, hst, h2, percent_self hcount]
  refine ⟨⟨_, _, hv, hv', ?_, ?_⟩, hfull, ?_, ?_⟩
  · rw [h2, h2']
    exact percent_mono h5 hle hcount
  · intro v v' hs hs'
    unfold Status at hs hs'
    split at hs
    · simp at hs
    split at hs'
    · simp at hs'
    simp only [Option.some.injEq] at hs hs'
    exact ⟨by rw [← hs, hv], by rw [← hs', hv']⟩
  · intro hret
    obtain ⟨hst, hmx⟩ := hretf hret
    refine ⟨hst, ?_⟩
    simp only [Status, hmx, Bool.false_eq_true, if_false, hfull hst]
  · intro hsmall
    refine ⟨?_, hfull⟩
    intro h100
    by_contra hne
    have hlt : s.req.status < count := by omega
    have := percent_lt_hundred h5 hlt hsmall
    rw [hv, h2] at h100
    have heq := F32.fin.inj h100
    linarith

/-- A run with `count = 2` sampled after the first and after the second claim: the value
of `Status` does not decrease, is not yet `100` after the first claim and is `100` after
the second. -/
theorem Status_monotone_witness :
    ∃ s s', exec exampleMaxCap oddFailStub (MakeSync.start (NewRequest ⟨"GET", "u"⟩ 2 1) 0)
        [.main, .main, .main, .main, .worker 0, .worker 0, .worker 0, .worker 0] = some s ∧
      exec exampleMaxCap oddFailStub s
        [.worker 0, .worker 0, .worker 0, .worker 0, .worker 0, .worker 0] = some s' ∧
      s.req.status = 1 ∧ s'.req.status = 2 ∧
      ∃ q q', statusValue s.req = .fin q ∧ statusValue s'.req = .fin q' ∧ q ≤ q' ∧
        statusValue s.req ≠ .fin 100 ∧ q' = 100 := by
  have hrun : ∃ s s', exec exampleMaxCap oddFailStub
      (MakeSync.start (NewRequest ⟨"GET", "u"⟩ 2 1) 0)
      [.main, .main, .main, .main, .worker 0, .worker 0, .worker 0, .worker 0] = some s ∧
      exec exampleMaxCap oddFailStub s
        [.worker 0, .worker 0, .worker 0, .worker 0, .worker 0, .worker 0] = some s' ∧
      s.req.status = 1 ∧ s'.req.status = 2 := ⟨_, _, rfl, rfl, rfl, rfl⟩
  obtain ⟨s, s', hex, hex', hst, hst'⟩ := hrun
  have hr₁ := Reachable.of_exec _ _ _ hex
  have hr₂ := Reachable.of_exec _ _ _ hex'
  obtain ⟨⟨q, q', hq, hq', hle, _⟩, _, _, hiff⟩ := Status_monotone exampleMaxCap oddFailStub
    ⟨"GET", "u"⟩ 2 1 (by decide) (by decide) (by decide) s s' hr₁ hr₂
  have hfull := (Status_monotone exampleMaxCap oddFailStub ⟨"GET", "u"⟩ 2 1 (by decide)
    (by decide) (by decide) s' s' (hr₁.trans hr₂) Reachable.refl).2.1 hst'
  rw [hq'] at hfull
  have hnot : statusValue s.req ≠ .fin 100 := by
    intro h100
    have := (hiff (by decide)).mp h100
    omega
  exact ⟨s, s', hex, hex', hst, hst', q, q', hq, hq', hle, hnot, F32.fin.inj hfull⟩

end Benchmark
